import Mathlib

/-!
Verification development for the interned-string (atom) table of
`src/src/js/vm/JSAtom.cpp`.

The embedding models the atom table as a state machine over pure data:
machine pointers become `Nat` handles into an allocation list (`Heap`),
hash sets become lists of entries searched with the source's matching
function, and fallible allocation points are driven by explicit boolean
oracles.  The functions mirror the control flow of the C++ source;
`IsAboutToBeFinalizedUnbarriered` (the collector's liveness predicate) is
an external parameter `dead : Nat → Bool`.
-/

/-! ### Hashing

Modelled from the spec: `mozilla::HashString` (header not in `src/`) is the
golden-ratio rotate-xor hash over the sequence of code-unit values; the spec
requires only that the hash is a pure function of the content's code points.
All arithmetic is 32-bit, expressed as `Nat` modulo `2 ^ 32`. -/

def goldenRatioHash : Nat := 0x9E3779B9

def rotl5 (h : Nat) : Nat := ((h <<< 5) ||| (h >>> 27)) % 2 ^ 32

def addToHash (h c : Nat) : Nat := (goldenRatioHash * (rotl5 h ^^^ c)) % 2 ^ 32

def hashString (units : List Nat) : Nat := units.foldl addToHash 0

/-! ### Atoms and entries -/

/-- The observable state of one atom (`JSAtom`): its code units, encoding
width, cached hash, and the pinned / permanent flags. -/
structure AtomData where
  units : List Nat
  isLatin1 : Bool
  hash : Nat
  pinned : Bool
  permanent : Bool
deriving DecidableEq

/-- `AtomStateEntry`: an atom handle paired with the entry-level pinned bit. -/
structure AtomStateEntry where
  atomId : Nat
  pinned : Bool
deriving DecidableEq

/-- The allocation store: atom handle `i` denotes `heap[i]`. -/
abbrev Heap := List AtomData

def getAtom (heap : Heap) (id : Nat) : Option AtomData := heap[id]?

/-- `atom->isPinned()`. -/
def atomPinned (heap : Heap) (id : Nat) : Bool :=
  match getAtom heap id with
  | none => false
  | some d => d.pinned

/-- `atom->setPinned()`. -/
def heapSetPinned (heap : Heap) (id : Nat) : Heap :=
  match getAtom heap id with
  | none => heap
  | some d => heap.set id { d with pinned := true }

/-- `atom->morphIntoPermanentAtom()`: permanent atoms are always pinned
(`TracePermanentAtoms` asserts `atom->isPinned()`). -/
def heapMorphPermanent (heap : Heap) (id : Nat) : Heap :=
  match getAtom heap id with
  | none => heap
  | some d => heap.set id { d with pinned := true, permanent := true }

/-! ### `AtomHasher::Lookup` -/

/-- `js::AtomHasher::Lookup`: transient descriptor of candidate content
(code units + encoding width + length + precomputed hash), optionally built
from an existing atom (`atom` field set). -/
structure Lookup where
  units : List Nat
  isLatin1 : Bool
  length : Nat
  atom : Option Nat
  hash : Nat
deriving DecidableEq

/-- `Lookup(const char16_t* chars, size_t length)`. -/
def Lookup.ofTwoByte (chars : List Nat) : Lookup :=
  { units := chars, isLatin1 := false, length := chars.length, atom := none,
    hash := hashString chars }

/-- `Lookup(const JS::Latin1Char* chars, size_t length)`. -/
def Lookup.ofLatin1 (chars : List Nat) : Lookup :=
  { units := chars, isLatin1 := true, length := chars.length, atom := none,
    hash := hashString chars }

/-- `Lookup(const JSAtom* atom)`: takes the atom's cached hash. -/
def Lookup.ofAtom (heap : Heap) (id : Nat) : Option Lookup :=
  (getAtom heap id).map fun d =>
    { units := d.units, isLatin1 := d.isLatin1, length := d.units.length,
      atom := some id, hash := d.hash }

def mkLookup (isLatin1 : Bool) (units : List Nat) : Lookup :=
  if isLatin1 then Lookup.ofLatin1 units else Lookup.ofTwoByte units

/-! ### `AtomHasher::match` -/

/-- `js::AtomHasher::match`: identity comparison when the lookup was built
from an atom; otherwise length/hash short-circuit followed by a four-way
character comparison on encoding widths (`ArrayEqual` / `EqualChars` both
compare code-unit values, hence list equality in the model). -/
def atomMatch (heap : Heap) (entry : AtomStateEntry) (l : Lookup) : Bool :=
  match l.atom with
  | some a => a == entry.atomId
  | none =>
    match getAtom heap entry.atomId with
    | none => false
    | some key =>
      if key.units.length != l.length || key.hash != l.hash then false
      else
        if key.isLatin1 then
          if l.isLatin1 then key.units == l.units
          else key.units == l.units
        else
          if l.isLatin1 then l.units == key.units
          else key.units == l.units

/-- Instrumented variant of `atomMatch`: second component records whether a
character comparison was performed. -/
def atomMatchTrace (heap : Heap) (entry : AtomStateEntry) (l : Lookup) :
    Bool × Bool :=
  match l.atom with
  | some a => (a == entry.atomId, false)
  | none =>
    match getAtom heap entry.atomId with
    | none => (false, false)
    | some key =>
      if key.units.length != l.length || key.hash != l.hash then (false, false)
      else
        if key.isLatin1 then
          if l.isLatin1 then (key.units == l.units, true)
          else (key.units == l.units, true)
        else
          if l.isLatin1 then (l.units == key.units, true)
          else (key.units == l.units, true)

/-! ### `AtomSet` -/

/-- An `AtomSet` (hash set of entries), modelled as a list searched with
`atomMatch`. -/
abbrev AtomSet := List AtomStateEntry

/-- `set.lookup(lookup)` / `set.lookupForAdd(lookup)`. -/
def setLookup (heap : Heap) (s : AtomSet) (l : Lookup) : Option AtomStateEntry :=
  s.find? (fun e => atomMatch heap e l)

/-- `set.add(p, entry)` / `set.putNew(lookup, entry)`. -/
def setAdd (s : AtomSet) (e : AtomStateEntry) : AtomSet := s ++ [e]

/-- `p->setPinned(true)`: set the entry-level pinned bit on the entry the
lookup resolved to (the first match). -/
def setPinFirst (heap : Heap) (s : AtomSet) (l : Lookup) : AtomSet :=
  match s with
  | [] => []
  | e :: rest =>
    if atomMatch heap e l then { e with pinned := true } :: rest
    else e :: setPinFirst heap rest l

/-! ### Partitions and the table -/

/-- `AtomsTable::Partition`: primary set plus the secondary set that exists
only while an incremental sweep of this partition is in progress. -/
structure Partition where
  atoms : AtomSet
  atomsAddedWhileSweeping : Option AtomSet
deriving DecidableEq

/-- Modelled from the spec: the partition-count constants live in the header
(not in `src/`); the shard index is a fixed high-order slice of the 32-bit
hash. -/
def PartitionShift : Nat := 5

def PartitionCount : Nat := 2 ^ PartitionShift

/-- `AtomsTable::getPartitionIndex`. -/
def getPartitionIndex (l : Lookup) : Nat := l.hash >>> (32 - PartitionShift)

/-! ### Runtime state -/

/-- The runtime state visible to the atomization paths: the allocation store,
the static-strings fast table, the caller's zone cache (if the caller has a
zone), the permanent set (staging and frozen), and the sharded atoms table. -/
structure JSRuntime where
  heap : Heap
  staticTable : List (List Nat × Nat)
  hasZone : Bool
  zoneCache : AtomSet
  permanentAtomsPopulated : Bool
  permanentAtomsDuringInit : AtomSet
  permanentAtoms : AtomSet
  partitions : List Partition
deriving DecidableEq

/-- Modelled from the spec: `StaticStrings::lookup` (not in `src/`) is a
fixed-content fast table from common tiny strings to atoms. -/
def staticLookup (rt : JSRuntime) (units : List Nat) : Option Nat :=
  (rt.staticTable.find? (fun p => p.1 == units)).map (fun p => p.2)

/-- Outcomes of the (at most one of each) fallible allocations inside a
single atomization call. -/
structure AllocOracle where
  newAtomOk : Bool
  setAddOk : Bool
  cacheAddOk : Bool
deriving DecidableEq

def allocAllOk : AllocOracle := ⟨true, true, true⟩

/-- `AllocateNewAtom`: fresh handle at the end of the heap, with the lookup's
hash cached on the atom and the pinned flag set when pinning was requested. -/
def AllocateNewAtom (heap : Heap) (units : List Nat) (isLatin1 : Bool)
    (pin : Bool) (l : Lookup) (ok : Bool) : Option (Nat × Heap) :=
  if ok then
    some (heap.length,
          heap ++ [{ units := units, isLatin1 := isLatin1, hash := l.hash,
                     pinned := pin, permanent := false }])
  else none

/-! ### `AtomsTable::atomizeAndCopyChars` (the shard path) -/

/-- `AtomsTable::atomizeAndCopyChars`: route to the shard by hash bits; if no
sweep is in progress look up the primary set; otherwise look up the secondary
set first and revalidate any primary hit against the liveness predicate; on a
hit optionally pin; on a total miss allocate and insert into the secondary
set when sweeping, the primary set otherwise. -/
def AtomsTable.atomizeAndCopyChars (rt : JSRuntime) (units : List Nat)
    (isLatin1 : Bool) (pin : Bool) (l : Lookup) (dead : Nat → Bool)
    (o : AllocOracle) : Option Nat × JSRuntime :=
  let i := getPartitionIndex l
  match rt.partitions[i]? with
  | none => (none, rt)
  | some part =>
    let found : Option (Bool × AtomStateEntry) :=
      match part.atomsAddedWhileSweeping with
      | none => (setLookup rt.heap part.atoms l).map (fun e => (false, e))
      | some sec =>
        match setLookup rt.heap sec l with
        | some e => some (true, e)
        | none =>
          match setLookup rt.heap part.atoms l with
          | some e2 => if dead e2.atomId then none else some (false, e2)
          | none => none
    match found with
    | some (inSec, e) =>
      if pin && !atomPinned rt.heap e.atomId then
        let heap2 := heapSetPinned rt.heap e.atomId
        let part2 :=
          if inSec then
            { part with atomsAddedWhileSweeping :=
                (part.atomsAddedWhileSweeping.map
                  (fun sec => setPinFirst rt.heap sec l)) }
          else { part with atoms := setPinFirst rt.heap part.atoms l }
        (some e.atomId,
         { rt with heap := heap2, partitions := rt.partitions.set i part2 })
      else (some e.atomId, rt)
    | none =>
      match AllocateNewAtom rt.heap units isLatin1 pin l o.newAtomOk with
      | none => (none, rt)
      | some (id, heap2) =>
        if o.setAddOk then
          let part2 :=
            match part.atomsAddedWhileSweeping with
            | some sec =>
              { part with atomsAddedWhileSweeping :=
                  (some (setAdd sec ⟨id, pin⟩)) }
            | none => { part with atoms := setAdd part.atoms ⟨id, pin⟩ }
          (some id,
           { rt with heap := heap2, partitions := rt.partitions.set i part2 })
        else (none, rt)

/-! ### `PermanentlyAtomizeAndCopyChars` and the top-level path -/

/-- `PermanentlyAtomizeAndCopyChars`: during initialization all atoms go into
the permanent staging set; a zone-cache insertion failure after the staging
insert fails the call (the staging insert is not undone). -/
def PermanentlyAtomizeAndCopyChars (rt : JSRuntime) (zonePtrActive : Bool)
    (units : List Nat) (isLatin1 : Bool) (l : Lookup) (o : AllocOracle) :
    Option Nat × JSRuntime :=
  match setLookup rt.heap rt.permanentAtomsDuringInit l with
  | some e => (some e.atomId, rt)
  | none =>
    match AllocateNewAtom rt.heap units isLatin1 false l o.newAtomOk with
    | none => (none, rt)
    | some (id, heap2) =>
      let heap3 := heapMorphPermanent heap2 id
      if o.setAddOk then
        let perm2 := setAdd rt.permanentAtomsDuringInit ⟨id, true⟩
        let rt2 := { rt with heap := heap3, permanentAtomsDuringInit := perm2 }
        if zonePtrActive then
          if o.cacheAddOk then
            (some id, { rt2 with zoneCache := setAdd rt2.zoneCache ⟨id, false⟩ })
          else (none, rt2)
        else (some id, rt2)
      else (none, rt)

/-- Stages consulted by `AtomizeAndCopyChars`, in source order. -/
inductive AtomizeEvent where
  | staticStrings
  | zoneCacheLookup
  | permanentInitPath
  | permanentLookup
  | lengthCheck
  | shardAccess
  | zoneCacheAdd
deriving DecidableEq

/-- The tail of `AtomizeAndCopyChars` that conditionally populates the zone
cache: failure of that insertion fails the whole call. -/
def zoneCacheAddStep (rt : JSRuntime) (active : Bool) (id : Nat) (ok : Bool) :
    Option Nat × JSRuntime × List AtomizeEvent :=
  if active then
    if ok then
      (some id, { rt with zoneCache := setAdd rt.zoneCache ⟨id, false⟩ },
       [AtomizeEvent.zoneCacheAdd])
    else (none, rt, [AtomizeEvent.zoneCacheAdd])
  else (some id, rt, [])

/-- `AtomizeAndCopyChars` after the static-table and zone-cache stages:
permanent-init path when the permanent set is not yet populated; otherwise
permanent lookup, then length validation, then the shard path, then the
zone-cache insertion. -/
def atomizeMain (rt : JSRuntime) (units : List Nat) (isLatin1 : Bool)
    (pin : Bool) (zonePtrActive : Bool) (l : Lookup) (maxLength : Nat)
    (dead : Nat → Bool) (o : AllocOracle) :
    Option Nat × JSRuntime × List AtomizeEvent :=
  if rt.permanentAtomsPopulated then
    match setLookup rt.heap rt.permanentAtoms l with
    | some e =>
      let r := zoneCacheAddStep rt zonePtrActive e.atomId o.cacheAddOk
      (r.1, r.2.1, AtomizeEvent.permanentLookup :: r.2.2)
    | none =>
      if units.length > maxLength then
        (none, rt, [AtomizeEvent.permanentLookup, AtomizeEvent.lengthCheck])
      else
        let r := AtomsTable.atomizeAndCopyChars rt units isLatin1 pin l dead o
        match r.1 with
        | none =>
          (none, r.2,
           [AtomizeEvent.permanentLookup, AtomizeEvent.lengthCheck,
            AtomizeEvent.shardAccess])
        | some id =>
          let r2 := zoneCacheAddStep r.2 zonePtrActive id o.cacheAddOk
          (r2.1, r2.2.1,
           [AtomizeEvent.permanentLookup, AtomizeEvent.lengthCheck,
            AtomizeEvent.shardAccess] ++ r2.2.2)
  else
    let r := PermanentlyAtomizeAndCopyChars rt zonePtrActive units isLatin1 l o
    (r.1, r.2, [AtomizeEvent.permanentInitPath])

/-- `AtomizeAndCopyChars`: static-strings fast table first; then the per-zone
cache (only when the caller has a zone and no pinning is requested); then the
main path.  The third component records the stages consulted, in order. -/
def AtomizeAndCopyChars (rt : JSRuntime) (units : List Nat) (isLatin1 : Bool)
    (pin : Bool) (maxLength : Nat) (dead : Nat → Bool) (o : AllocOracle) :
    Option Nat × JSRuntime × List AtomizeEvent :=
  match staticLookup rt units with
  | some s => (some s, rt, [AtomizeEvent.staticStrings])
  | none =>
    let l := mkLookup isLatin1 units
    let zonePtrActive := rt.hasZone && !pin
    if zonePtrActive then
      match setLookup rt.heap rt.zoneCache l with
      | some e =>
        (some e.atomId, rt,
         [AtomizeEvent.staticStrings, AtomizeEvent.zoneCacheLookup])
      | none =>
        let r := atomizeMain rt units isLatin1 pin true l maxLength dead o
        (r.1, r.2.1,
         AtomizeEvent.staticStrings :: AtomizeEvent.zoneCacheLookup :: r.2.2)
    else
      let r := atomizeMain rt units isLatin1 pin false l maxLength dead o
      (r.1, r.2.1, AtomizeEvent.staticStrings :: r.2.2)

/-! ### Pinning -/

/-- `AtomsTable::pinExistingAtom`: `none` models a violated internal
assertion (`MOZ_ASSERT(!atom->isPinned())`, `MOZ_ASSERT(p)`,
`MOZ_ASSERT(p->asPtrUnbarriered() == atom)`). -/
def AtomsTable.pinExistingAtom (rt : JSRuntime) (id : Nat) : Option JSRuntime :=
  match getAtom rt.heap id with
  | none => none
  | some d =>
    if d.pinned then none
    else
      let l : Lookup := { units := d.units, isLatin1 := d.isLatin1,
                          length := d.units.length, atom := some id,
                          hash := d.hash }
      let i := getPartitionIndex l
      match rt.partitions[i]? with
      | none => none
      | some part =>
        match setLookup rt.heap part.atoms l with
        | some e =>
          if e.atomId != id then none
          else
            let part2 := { part with atoms := setPinFirst rt.heap part.atoms l }
            let parts2 := rt.partitions.set i part2
            some { rt with heap := heapSetPinned rt.heap id, partitions := parts2 }
        | none =>
          match part.atomsAddedWhileSweeping with
          | none => none
          | some sec =>
            match setLookup rt.heap sec l with
            | none => none
            | some e =>
              if e.atomId != id then none
              else
                let part2 :=
                  { part with atomsAddedWhileSweeping :=
                      (some (setPinFirst rt.heap sec l)) }
                let parts2 := rt.partitions.set i part2
                some { rt with heap := heapSetPinned rt.heap id, partitions := parts2 }

/-- A `JSString` as seen by `js::AtomizeString`: already an atom, or linear
content to be atomized. -/
inductive JSStringRepr where
  | atomRef (id : Nat)
  | linear (isLatin1 : Bool) (units : List Nat)

/-- `js::AtomizeString`: an atom string is returned as-is, pinning it first
when a pin is requested and it is not already pinned; other strings go
through `AtomizeAndCopyChars`. -/
def AtomizeString (rt : JSRuntime) (s : JSStringRepr) (pin : Bool)
    (maxLength : Nat) (dead : Nat → Bool) (o : AllocOracle) :
    Option Nat × JSRuntime :=
  match s with
  | .atomRef id =>
    if pin && !atomPinned rt.heap id then
      match AtomsTable.pinExistingAtom rt id with
      | some rt2 => (some id, rt2)
      | none => (none, rt)
    else (some id, rt)
  | .linear isLatin1 units =>
    let r := AtomizeAndCopyChars rt units isLatin1 pin maxLength dead o
    (r.1, r.2.1)

/-! ### Sweeping -/

/-- `AtomsTable::sweepAll`: one pass over every partition's primary set,
removing entries the liveness predicate reports about to be finalized.  The
pinned bit is not consulted. -/
def AtomsTable.sweepAll (dead : Nat → Bool) (parts : List Partition) :
    List Partition :=
  parts.map fun part =>
    { part with atoms := part.atoms.filter (fun e => !dead e.atomId) }

/-- `AtomsTable::mergeAtomsAddedWhileSweeping`: move every secondary entry
into the primary set and destroy the secondary set (allocation failure here
is fatal in the source and outside the model). -/
def mergeAtomsAddedWhileSweeping (part : Partition) : Partition :=
  match part.atomsAddedWhileSweeping with
  | none => part
  | some sec => { atoms := part.atoms ++ sec, atomsAddedWhileSweeping := none }

/-- First loop of `AtomsTable::startIncrementalSweep`: allocate a secondary
set per partition, stopping at the first allocation failure. -/
def startIncrementalSweepLoop (allocOk : Nat → Bool) (i : Nat) :
    List Partition → Bool × List Partition
  | [] => (true, [])
  | part :: rest =>
    if allocOk i then
      let r := startIncrementalSweepLoop allocOk (i + 1) rest
      (r.1, { part with atomsAddedWhileSweeping := some [] } :: r.2)
    else (false, part :: rest)

/-- `AtomsTable::startIncrementalSweep`: on any allocation failure, discard
every created secondary set and null every partition's secondary pointer. -/
def AtomsTable.startIncrementalSweep (allocOk : Nat → Bool)
    (parts : List Partition) : Bool × List Partition :=
  let r := startIncrementalSweepLoop allocOk 0 parts
  if r.1 then (true, r.2)
  else (false, r.2.map fun p => { p with atomsAddedWhileSweeping := none })

/-- `AtomsTable::SweepIterator::settle`: while the inner iterator is empty,
merge the current partition's secondary set into its primary set and advance
to the next partition.  The iterator is the pair (partition index, position
in that partition's primary set). -/
def settleLoop (parts : List Partition) (i pos : Nat) :
    List Partition × Nat × Nat :=
  if h : i < parts.length then
    let part := parts.get ⟨i, h⟩
    if pos < part.atoms.length then (parts, i, pos)
    else settleLoop (parts.set i (mergeAtomsAddedWhileSweeping part)) (i + 1) 0
  else (parts, i, pos)
termination_by parts.length - i
decreasing_by simp [List.length_set]; omega

/-- `AtomsTable::sweepIncrementally`: process entries until the cursor is
exhausted (`true`, Done) or the budget runs out (`false`, InProgress).  Each
visited entry is removed when the liveness predicate reports it about to be
finalized; the cursor then settles, merging any fully swept partition. -/
def AtomsTable.sweepIncrementally (dead : Nat → Bool) :
    Nat → List Partition → Nat → Nat → Bool × List Partition × Nat × Nat
  | budget, parts, i, pos =>
    if i < parts.length then
      match budget with
      | 0 => (false, parts, i, pos)
      | b + 1 =>
        match parts[i]? with
        | none => (false, parts, i, pos)
        | some part =>
          match part.atoms[pos]? with
          | none => (false, parts, i, pos)
          | some e =>
            let step :=
              if dead e.atomId then
                (parts.set i { part with atoms := part.atoms.eraseIdx pos },
                 pos)
              else (parts, pos + 1)
            let r := settleLoop step.1 i step.2
            AtomsTable.sweepIncrementally dead b r.1 r.2.1 r.2.2
    else (true, parts, i, pos)

/-- `AtomsTable::SweepIterator` construction: start at partition 0 and
settle. -/
def sweepIteratorInit (parts : List Partition) : List Partition × Nat × Nat :=
  settleLoop parts 0 0

/-- `AtomsTable::tracePinnedAtomsInSet`: the pinned entries reported to the
tracer as roots. -/
def tracePinnedAtomsInSet (s : AtomSet) : List Nat :=
  (s.filter (fun e => e.pinned)).map (fun e => e.atomId)

/-- `AtomsTable::tracePinnedAtoms`: roots from every partition's primary set
and, when present, its secondary set. -/
def AtomsTable.tracePinnedAtoms (parts : List Partition) : List Nat :=
  parts.flatMap fun part =>
    tracePinnedAtomsInSet part.atoms ++
      (match part.atomsAddedWhileSweeping with
       | none => []
       | some sec => tracePinnedAtomsInSet sec)

/-! ### Auxiliary predicates used in the statements -/

def emptyPartition : Partition := { atoms := [], atomsAddedWhileSweeping := none }

/-- The entries of one partition (primary set, then the secondary set when it
exists). -/
def partEntries (p : Partition) : List AtomStateEntry :=
  p.atoms ++ (match p.atomsAddedWhileSweeping with
              | none => []
              | some sec => sec)

/-- All entries in the table scope: the frozen permanent set and every
partition's sets. -/
def scopeEntries (rt : JSRuntime) : List AtomStateEntry :=
  rt.permanentAtoms ++ rt.partitions.flatMap partEntries

/-- The content stored for an atom handle. -/
def unitsAt (heap : Heap) (id : Nat) : Option (List Nat) :=
  (getAtom heap id).map (fun d => d.units)

/-- Whether some partition holds an entry for atom `a`. -/
def entryPresent (parts : List Partition) (a : Nat) : Bool :=
  parts.any fun p => (partEntries p).any (fun e => e.atomId == a)

/-- Whether some partition holds an entry for atom `a` with the entry-level
pinned bit set. -/
def entryPinnedSomewhere (parts : List Partition) (a : Nat) : Bool :=
  parts.any fun p => (partEntries p).any (fun e => e.atomId == a && e.pinned)

/-! ### Concrete states used by witnesses and counterexamples -/

/-- A state whose static-strings table resolves content `[5]` to atom 7. -/
def rtStaticHit : JSRuntime :=
  { heap := [], staticTable := [([5], 7)], hasZone := false, zoneCache := [],
    permanentAtomsPopulated := true, permanentAtomsDuringInit := [],
    permanentAtoms := [], partitions := List.replicate 32 emptyPartition }

/-- A permanent atom with content `[97]`. -/
def atomDataA : AtomData :=
  { units := [97], isLatin1 := true, hash := hashString [97], pinned := true,
    permanent := true }

/-- A state whose permanent set resolves content `[97]` to atom 0, with a
zone present. -/
def rtPermHit : JSRuntime :=
  { heap := [atomDataA], staticTable := [], hasZone := true, zoneCache := [],
    permanentAtomsPopulated := true, permanentAtomsDuringInit := [],
    permanentAtoms := [⟨0, true⟩],
    partitions := List.replicate 32 emptyPartition }

/-- An unpinned, non-permanent atom with content `[97]`. -/
def atomData97 : AtomData :=
  { units := [97], isLatin1 := true, hash := hashString [97], pinned := false,
    permanent := false }

/-- A partition holding atom 0 in its primary set, mid-sweep (empty secondary
set present). -/
def partSweep97 : Partition :=
  { atoms := [⟨0, false⟩], atomsAddedWhileSweeping := some [] }

/-- A partition holding atom 0 in its primary set, no sweep in progress. -/
def partPlain97 : Partition :=
  { atoms := [⟨0, false⟩], atomsAddedWhileSweeping := none }

/-- A mid-sweep state: atom 0 (content `[97]`) interned in its partition's
primary set, secondary set allocated. -/
def rtSweep97 : JSRuntime :=
  { heap := [atomData97], staticTable := [], hasZone := false, zoneCache := [],
    permanentAtomsPopulated := true, permanentAtomsDuringInit := [],
    permanentAtoms := [],
    partitions := (List.replicate 32 emptyPartition).set
      (getPartitionIndex (Lookup.ofLatin1 [97])) partSweep97 }

/-- The same state with no sweep in progress. -/
def rtPlain97 : JSRuntime :=
  { heap := [atomData97], staticTable := [], hasZone := false, zoneCache := [],
    permanentAtomsPopulated := true, permanentAtomsDuringInit := [],
    permanentAtoms := [],
    partitions := (List.replicate 32 emptyPartition).set
      (getPartitionIndex (Lookup.ofLatin1 [97])) partPlain97 }

/-- The entry for atom `a` lives in partition `p` (primary or secondary). -/
def entryInPartition (p : Partition) (e : AtomStateEntry) : Prop :=
  e ∈ p.atoms ∨ ∃ sec, p.atomsAddedWhileSweeping = some sec ∧ e ∈ sec

/-- `rtPlain97` after pinning atom 0. -/
def rtPinned97 : JSRuntime :=
  (AtomsTable.pinExistingAtom rtPlain97 0).getD rtPlain97

/-- The merge invariant of an in-progress incremental sweep whose cursor is
at partition `i`: a partition's secondary set has been merged away (is null)
exactly when the cursor has passed it. -/
def SecondaryShape (parts : List Partition) (i : Nat) : Prop :=
  ∀ j, j < parts.length →
    (((parts[j]?).map Partition.atomsAddedWhileSweeping = some none) ↔ j < i)

/-- A small two-partition table mid-sweep: both secondary sets freshly
allocated, one interned atom. -/
def partsC4 : List Partition := [⟨[⟨0, false⟩], some []⟩, ⟨[], some []⟩]

/-- Every entry of the set is a valid handle into the heap. -/
def setIdsValid (heap : Heap) (s : AtomSet) : Bool :=
  s.all (fun e => decide (e.atomId < heap.length))

/-- Every handle cached outside the shards (zone cache, frozen permanent set,
permanent staging set) is a valid handle into the heap. -/
def rtIdsValid (rt : JSRuntime) : Bool :=
  setIdsValid rt.heap rt.zoneCache
    && setIdsValid rt.heap rt.permanentAtoms
    && setIdsValid rt.heap rt.permanentAtomsDuringInit

/-- A liveness predicate reporting every atom reachable. -/
def deadNever : Nat → Bool := fun _ => false

/-- A liveness predicate reporting exactly atom 0 about to be finalized. -/
def deadOnly0 : Nat → Bool := fun a => a == 0

/-- The canonicalization invariant as the spec states it: any two entries in
the table scope have equal content exactly when they have equal identity. -/
def contentCanonical (rt : JSRuntime) : Prop :=
  ∀ e1 ∈ scopeEntries rt, ∀ e2 ∈ scopeEntries rt,
    (unitsAt rt.heap e1.atomId = unitsAt rt.heap e2.atomId
      ↔ e1.atomId = e2.atomId)

/-! ### Basic lemmas about matching -/

theorem listBeq_comm (a b : List Nat) : (a == b) = (b == a) := by
  cases h1 : a == b <;> cases h2 : b == a <;> simp_all

theorem mkLookup_eq (b : Bool) (u : List Nat) :
    mkLookup b u = ⟨u, b, u.length, none, hashString u⟩ := by
  cases b <;> rfl

theorem atomMatch_entry_congr (heap : Heap) (e1 e2 : AtomStateEntry)
    (l : Lookup) (h : e1.atomId = e2.atomId) :
    atomMatch heap e1 l = atomMatch heap e2 l := by
  simp only [atomMatch, h]

theorem atomMatch_some_atom (heap : Heap) (e : AtomStateEntry) (u : List Nat)
    (b : Bool) (n : Nat) (a hs : Nat) :
    atomMatch heap e ⟨u, b, n, some a, hs⟩ = (a == e.atomId) := rfl

theorem atomMatch_isLatin1_congr (heap : Heap) (e : AtomStateEntry)
    (u : List Nat) (b1 b2 : Bool) (n hs : Nat) :
    atomMatch heap e ⟨u, b1, n, none, hs⟩ = atomMatch heap e ⟨u, b2, n, none, hs⟩ := by
  simp only [atomMatch]
  cases getAtom heap e.atomId with
  | none => rfl
  | some key =>
    simp only
    split
    · rfl
    · cases hk : key.isLatin1 <;> cases b1 <;> cases b2 <;>
        simp [listBeq_comm]

theorem atomMatch_none_iff (heap : Heap) (e : AtomStateEntry) (u : List Nat)
    (b : Bool) (n hs : Nat) :
    atomMatch heap e ⟨u, b, n, none, hs⟩ = true ↔
      ∃ d, getAtom heap e.atomId = some d ∧ d.units.length = n ∧
        d.hash = hs ∧ d.units = u := by
  simp only [atomMatch]
  cases hg : getAtom heap e.atomId with
  | none => simp
  | some key =>
    simp only [hg]
    constructor
    · intro h
      split at h
      · exact absurd h (by simp)
      · rename_i hcond
        simp only [Bool.or_eq_true, bne_iff_ne, ne_eq, not_or, not_not] at hcond
        refine ⟨key, rfl, hcond.1, hcond.2, ?_⟩
        cases hk : key.isLatin1 <;> cases b <;> simp_all [listBeq_comm]
    · rintro ⟨d, hd, hlen, hh, hu⟩
      cases hd
      split
      · rename_i hcond
        simp only [Bool.or_eq_true, bne_iff_ne, ne_eq] at hcond
        rcases hcond with h | h
        · exact absurd hlen h
        · exact absurd hh h
      · cases hk : key.isLatin1 <;> cases b <;> simp_all

/-! ### Field-preservation lemmas -/

theorem shard_state_shape (rt : JSRuntime) (u : List Nat) (b pin : Bool)
    (l : Lookup) (dead : Nat → Bool) (o : AllocOracle) :
    ∃ h ps, (AtomsTable.atomizeAndCopyChars rt u b pin l dead o).2
      = { rt with heap := h, partitions := ps } := by
  unfold AtomsTable.atomizeAndCopyChars
  dsimp only
  split
  · exact ⟨rt.heap, rt.partitions, rfl⟩
  · split
    · split
      · exact ⟨_, _, rfl⟩
      · exact ⟨rt.heap, rt.partitions, rfl⟩
    · split
      · exact ⟨rt.heap, rt.partitions, rfl⟩
      · split
        · exact ⟨_, _, rfl⟩
        · exact ⟨rt.heap, rt.partitions, rfl⟩

theorem permInit_state_shape (rt : JSRuntime) (zp : Bool) (u : List Nat)
    (b : Bool) (l : Lookup) (o : AllocOracle) :
    ∃ h pd zc, (PermanentlyAtomizeAndCopyChars rt zp u b l o).2
      = { rt with heap := h, permanentAtomsDuringInit := pd, zoneCache := zc } := by
  unfold PermanentlyAtomizeAndCopyChars
  dsimp only
  split
  · exact ⟨rt.heap, rt.permanentAtomsDuringInit, rt.zoneCache, rfl⟩
  · split
    · exact ⟨rt.heap, rt.permanentAtomsDuringInit, rt.zoneCache, rfl⟩
    · split
      · split
        · split
          · exact ⟨_, _, _, rfl⟩
          · exact ⟨_, _, _, rfl⟩
        · exact ⟨_, _, _, rfl⟩
      · exact ⟨rt.heap, rt.permanentAtomsDuringInit, rt.zoneCache, rfl⟩

theorem permInit_preserves_cache (rt : JSRuntime) (u : List Nat)
    (b : Bool) (l : Lookup) (o : AllocOracle) :
    (PermanentlyAtomizeAndCopyChars rt false u b l o).2.zoneCache = rt.zoneCache := by
  unfold PermanentlyAtomizeAndCopyChars
  dsimp only
  split
  · rfl
  · split
    · rfl
    · split
      · split
        · split <;> simp_all
        · rfl
      · rfl

/-! ### `startIncrementalSweep`: all-or-nothing (claim C5) -/

theorem startIncrementalSweepLoop_map_none (f : Nat → Bool) (i : Nat)
    (parts : List Partition) :
    ((startIncrementalSweepLoop f i parts).2).map
        (fun p => { p with atomsAddedWhileSweeping := none })
      = parts.map (fun p => { p with atomsAddedWhileSweeping := none }) := by
  induction parts generalizing i with
  | nil => simp [startIncrementalSweepLoop]
  | cons p rest ih =>
    simp only [startIncrementalSweepLoop]
    split
    · simp [ih]
    · simp

theorem startIncrementalSweepLoop_true (f : Nat → Bool) (i : Nat)
    (parts : List Partition)
    (h : (startIncrementalSweepLoop f i parts).1 = true) :
    (startIncrementalSweepLoop f i parts).2
      = parts.map (fun p => { p with atomsAddedWhileSweeping := some [] }) := by
  induction parts generalizing i with
  | nil => simp [startIncrementalSweepLoop]
  | cons p rest ih =>
    simp only [startIncrementalSweepLoop] at h ⊢
    split
    · rename_i hf
      simp only [hf, if_true] at h
      simp [ih i.succ h]
    · rename_i hf
      simp [hf] at h

theorem startIncrementalSweepLoop_ok_iff (f : Nat → Bool) (i : Nat)
    (parts : List Partition) :
    (startIncrementalSweepLoop f i parts).1 = true ↔
      ∀ j, j < parts.length → f (i + j) = true := by
  induction parts generalizing i with
  | nil => simp [startIncrementalSweepLoop]
  | cons p rest ih =>
    simp only [startIncrementalSweepLoop]
    split
    · rename_i hf
      rw [ih i.succ]
      constructor
      · intro h j hj
        cases j with
        | zero => simpa using hf
        | succ k =>
          have hk := h k (by simp only [List.length_cons] at hj; omega)
          have e : i + (k + 1) = i.succ + k := by omega
          rw [e]
          exact hk
      · intro h j hj
        have hk := h (j + 1) (by simp only [List.length_cons]; omega)
        have e : i.succ + j = i + (j + 1) := by omega
        rw [e]
        exact hk
    · rename_i hf
      simp only [Bool.false_eq_true, false_iff]
      intro h
      exact hf (by simpa using h 0 (by simp))

/-- Claim C5: `startIncrementalSweep` is all-or-nothing.  Starting from a
table with no secondary sets, either every allocation succeeds, every
partition gets an empty secondary set and the call reports success, or some
allocation fails and the call reports failure with the table exactly in its
pre-call state; success is reported exactly when every allocation
succeeded. -/
theorem startIncrementalSweep_atomic (f : Nat → Bool) (parts : List Partition)
    (hpre : ∀ p ∈ parts, p.atomsAddedWhileSweeping = none) :
    ((AtomsTable.startIncrementalSweep f parts).1 = true →
      (AtomsTable.startIncrementalSweep f parts).2
        = parts.map (fun p => { p with atomsAddedWhileSweeping := some [] }))
    ∧ ((AtomsTable.startIncrementalSweep f parts).1 = false →
      (AtomsTable.startIncrementalSweep f parts).2 = parts)
    ∧ ((AtomsTable.startIncrementalSweep f parts).1 = true ↔
        ∀ j, j < parts.length → f j = true) := by
  unfold AtomsTable.startIncrementalSweep
  dsimp only
  split
  · rename_i hok
    refine ⟨fun _ => startIncrementalSweepLoop_true f 0 parts hok,
            fun h => absurd h (by simp), ?_⟩
    simpa using (startIncrementalSweepLoop_ok_iff f 0 parts).mp hok
  · rename_i hok
    rw [Bool.not_eq_true] at hok
    refine ⟨fun h => absurd h (by simp [hok]), fun _ => ?_, ?_⟩
    · rw [startIncrementalSweepLoop_map_none]
      have : ∀ p ∈ parts, (fun q => { q with atomsAddedWhileSweeping := none }) p = p := by
        intro p hp
        have := hpre p hp
        cases p
        simp_all
      rw [List.map_congr_left this, List.map_id']
    · simp only [hok, Bool.false_eq_true, false_iff]
      intro h
      have := (startIncrementalSweepLoop_ok_iff f 0 parts).mpr (by simpa using h)
      simp [this] at hok

/-- Witness for `startIncrementalSweep_atomic` on a concrete two-partition
table with an allocation oracle that fails on partition 1. -/
theorem startIncrementalSweep_atomic_witness :
    (∀ p ∈ [emptyPartition, emptyPartition], p.atomsAddedWhileSweeping = none)
    ∧ (((AtomsTable.startIncrementalSweep (fun j => j == 0)
          [emptyPartition, emptyPartition]).1 = true →
        (AtomsTable.startIncrementalSweep (fun j => j == 0)
          [emptyPartition, emptyPartition]).2
          = [emptyPartition, emptyPartition].map
              (fun p => { p with atomsAddedWhileSweeping := some [] }))
      ∧ ((AtomsTable.startIncrementalSweep (fun j => j == 0)
            [emptyPartition, emptyPartition]).1 = false →
          (AtomsTable.startIncrementalSweep (fun j => j == 0)
            [emptyPartition, emptyPartition]).2 = [emptyPartition, emptyPartition])
      ∧ ((AtomsTable.startIncrementalSweep (fun j => j == 0)
            [emptyPartition, emptyPartition]).1 = true ↔
          ∀ j, j < ([emptyPartition, emptyPartition] : List Partition).length →
            (fun j => j == 0) j = true)) :=
  ⟨by decide, startIncrementalSweep_atomic (fun j => j == 0)
    [emptyPartition, emptyPartition] (by decide)⟩

/-! ### Pinning bypasses the zone cache (claim C9) -/

/-- Claim C9: when pinning is requested, `AtomizeAndCopyChars` neither
consults nor populates the per-zone cache: the zone cache is unchanged in the
result state and no zone-cache stage appears in the consulted-stage trace. -/
theorem atomize_pin_bypasses_zone_cache (rt : JSRuntime) (u : List Nat)
    (b : Bool) (maxL : Nat) (dead : Nat → Bool) (o : AllocOracle) :
    (AtomizeAndCopyChars rt u b true maxL dead o).2.1.zoneCache = rt.zoneCache
    ∧ AtomizeEvent.zoneCacheLookup ∉ (AtomizeAndCopyChars rt u b true maxL dead o).2.2
    ∧ AtomizeEvent.zoneCacheAdd ∉ (AtomizeAndCopyChars rt u b true maxL dead o).2.2 := by
  unfold AtomizeAndCopyChars
  dsimp only
  split
  · exact ⟨rfl, by simp, by simp⟩
  · simp only [Bool.not_true, Bool.and_false, Bool.false_eq_true, if_false]
    unfold atomizeMain
    dsimp only
    split
    · split
      · exact ⟨by simp [zoneCacheAddStep], by simp [zoneCacheAddStep],
               by simp [zoneCacheAddStep]⟩
      · split
        · exact ⟨rfl, by simp, by simp⟩
        · rcases shard_state_shape rt u b true (mkLookup b u) dead o with
            ⟨h2, ps2, hshape⟩
          split
          · exact ⟨by simp [hshape], by simp, by simp⟩
          · exact ⟨by simp [zoneCacheAddStep, hshape],
                   by simp [zoneCacheAddStep], by simp [zoneCacheAddStep]⟩
    · refine ⟨?_, by simp, by simp⟩
      simpa using permInit_preserves_cache rt u b (mkLookup b u) o

/-! ### Path equations for `AtomizeAndCopyChars` -/

theorem zoneCacheAddStep_inactive (rt : JSRuntime) (id : Nat) (ok : Bool) :
    zoneCacheAddStep rt false id ok = (some id, rt, []) := by
  simp [zoneCacheAddStep]

theorem zoneCacheAddStep_ok (rt : JSRuntime) (id : Nat) :
    zoneCacheAddStep rt true id true
      = (some id, { rt with zoneCache := setAdd rt.zoneCache ⟨id, false⟩ },
         [AtomizeEvent.zoneCacheAdd]) := by
  simp [zoneCacheAddStep]

theorem zoneCacheAddStep_fail (rt : JSRuntime) (id : Nat) :
    zoneCacheAddStep rt true id false = (none, rt, [AtomizeEvent.zoneCacheAdd]) := by
  simp [zoneCacheAddStep]

theorem atomize_static_hit (rt : JSRuntime) (u : List Nat) (b pin : Bool)
    (maxL : Nat) (dead : Nat → Bool) (o : AllocOracle) (s : Nat)
    (h : staticLookup rt u = some s) :
    AtomizeAndCopyChars rt u b pin maxL dead o
      = (some s, rt, [AtomizeEvent.staticStrings]) := by
  simp [AtomizeAndCopyChars, h]

theorem atomize_zone_hit (rt : JSRuntime) (u : List Nat) (b : Bool)
    (maxL : Nat) (dead : Nat → Bool) (o : AllocOracle) (e : AtomStateEntry)
    (hst : staticLookup rt u = none) (hz : rt.hasZone = true)
    (hc : setLookup rt.heap rt.zoneCache (mkLookup b u) = some e) :
    AtomizeAndCopyChars rt u b false maxL dead o
      = (some e.atomId, rt,
         [AtomizeEvent.staticStrings, AtomizeEvent.zoneCacheLookup]) := by
  simp [AtomizeAndCopyChars, hst, hz, hc]

theorem atomize_zone_miss (rt : JSRuntime) (u : List Nat) (b : Bool)
    (maxL : Nat) (dead : Nat → Bool) (o : AllocOracle)
    (hst : staticLookup rt u = none) (hz : rt.hasZone = true)
    (hc : setLookup rt.heap rt.zoneCache (mkLookup b u) = none) :
    AtomizeAndCopyChars rt u b false maxL dead o
      = ((atomizeMain rt u b false true (mkLookup b u) maxL dead o).1,
         (atomizeMain rt u b false true (mkLookup b u) maxL dead o).2.1,
         AtomizeEvent.staticStrings :: AtomizeEvent.zoneCacheLookup ::
           (atomizeMain rt u b false true (mkLookup b u) maxL dead o).2.2) := by
  simp [AtomizeAndCopyChars, hst, hz, hc]

theorem atomize_no_zone_path (rt : JSRuntime) (u : List Nat) (b pin : Bool)
    (maxL : Nat) (dead : Nat → Bool) (o : AllocOracle)
    (hst : staticLookup rt u = none) (hzp : (rt.hasZone && !pin) = false) :
    AtomizeAndCopyChars rt u b pin maxL dead o
      = ((atomizeMain rt u b pin false (mkLookup b u) maxL dead o).1,
         (atomizeMain rt u b pin false (mkLookup b u) maxL dead o).2.1,
         AtomizeEvent.staticStrings ::
           (atomizeMain rt u b pin false (mkLookup b u) maxL dead o).2.2) := by
  simp [AtomizeAndCopyChars, hst, hzp]

theorem atomizeMain_perm_hit (rt : JSRuntime) (u : List Nat) (b pin zp : Bool)
    (maxL : Nat) (dead : Nat → Bool) (o : AllocOracle) (e : AtomStateEntry)
    (hpop : rt.permanentAtomsPopulated = true)
    (hp : setLookup rt.heap rt.permanentAtoms (mkLookup b u) = some e) :
    atomizeMain rt u b pin zp (mkLookup b u) maxL dead o
      = ((zoneCacheAddStep rt zp e.atomId o.cacheAddOk).1,
         (zoneCacheAddStep rt zp e.atomId o.cacheAddOk).2.1,
         AtomizeEvent.permanentLookup ::
           (zoneCacheAddStep rt zp e.atomId o.cacheAddOk).2.2) := by
  simp [atomizeMain, hpop, hp]

theorem atomizeMain_length_fail (rt : JSRuntime) (u : List Nat) (b pin zp : Bool)
    (maxL : Nat) (dead : Nat → Bool) (o : AllocOracle)
    (hpop : rt.permanentAtomsPopulated = true)
    (hp : setLookup rt.heap rt.permanentAtoms (mkLookup b u) = none)
    (hlen : u.length > maxL) :
    atomizeMain rt u b pin zp (mkLookup b u) maxL dead o
      = (none, rt, [AtomizeEvent.permanentLookup, AtomizeEvent.lengthCheck]) := by
  simp [atomizeMain, hpop, hp, hlen]

theorem atomizeMain_shard_none (rt : JSRuntime) (u : List Nat) (b pin zp : Bool)
    (maxL : Nat) (dead : Nat → Bool) (o : AllocOracle)
    (hpop : rt.permanentAtomsPopulated = true)
    (hp : setLookup rt.heap rt.permanentAtoms (mkLookup b u) = none)
    (hlen : ¬ u.length > maxL)
    (hr : (AtomsTable.atomizeAndCopyChars rt u b pin (mkLookup b u) dead o).1 = none) :
    atomizeMain rt u b pin zp (mkLookup b u) maxL dead o
      = (none, (AtomsTable.atomizeAndCopyChars rt u b pin (mkLookup b u) dead o).2,
         [AtomizeEvent.permanentLookup, AtomizeEvent.lengthCheck,
          AtomizeEvent.shardAccess]) := by
  simp [atomizeMain, hpop, hp, hlen, hr]

theorem atomizeMain_shard_some (rt : JSRuntime) (u : List Nat) (b pin zp : Bool)
    (maxL : Nat) (dead : Nat → Bool) (o : AllocOracle) (id : Nat)
    (hpop : rt.permanentAtomsPopulated = true)
    (hp : setLookup rt.heap rt.permanentAtoms (mkLookup b u) = none)
    (hlen : ¬ u.length > maxL)
    (hr : (AtomsTable.atomizeAndCopyChars rt u b pin (mkLookup b u) dead o).1 = some id) :
    atomizeMain rt u b pin zp (mkLookup b u) maxL dead o
      = ((zoneCacheAddStep (AtomsTable.atomizeAndCopyChars rt u b pin (mkLookup b u) dead o).2 zp id o.cacheAddOk).1,
         (zoneCacheAddStep (AtomsTable.atomizeAndCopyChars rt u b pin (mkLookup b u) dead o).2 zp id o.cacheAddOk).2.1,
         [AtomizeEvent.permanentLookup, AtomizeEvent.lengthCheck,
          AtomizeEvent.shardAccess] ++
           (zoneCacheAddStep (AtomsTable.atomizeAndCopyChars rt u b pin (mkLookup b u) dead o).2 zp id o.cacheAddOk).2.2) := by
  simp [atomizeMain, hpop, hp, hlen, hr]

theorem atomizeMain_init (rt : JSRuntime) (u : List Nat) (b pin zp : Bool)
    (maxL : Nat) (dead : Nat → Bool) (o : AllocOracle)
    (hpop : rt.permanentAtomsPopulated = false) :
    atomizeMain rt u b pin zp (mkLookup b u) maxL dead o
      = ((PermanentlyAtomizeAndCopyChars rt zp u b (mkLookup b u) o).1,
         (PermanentlyAtomizeAndCopyChars rt zp u b (mkLookup b u) o).2,
         [AtomizeEvent.permanentInitPath]) := by
  simp [atomizeMain, hpop]

theorem zoneCacheAddStep_partitions (rt : JSRuntime) (act : Bool) (id : Nat)
    (ok : Bool) :
    (zoneCacheAddStep rt act id ok).2.1.partitions = rt.partitions := by
  cases act <;> cases ok <;> simp [zoneCacheAddStep]

theorem zoneCacheAddStep_events (rt : JSRuntime) (act : Bool) (id : Nat)
    (ok : Bool) :
    (zoneCacheAddStep rt act id ok).2.2 = []
    ∨ (zoneCacheAddStep rt act id ok).2.2 = [AtomizeEvent.zoneCacheAdd] := by
  cases act <;> cases ok <;> simp [zoneCacheAddStep]

/-! ### Resolution order (claim C6) -/

/-- Claim C6: resolution order of `AtomizeAndCopyChars`.  A static-table hit
returns immediately with no other stage consulted and no state change; a
zone-cache hit (zone present, no pin requested) returns immediately after the
static stage with no state change; a permanent-set hit never consults the
length check or any shard and leaves the partitions untouched; a length over
the maximum fails the call before any shard is touched, leaving the state
unchanged; on the full path the consulted stages are exactly static table,
permanent set, length check, shard, in that order. -/
theorem atomize_resolution_order (rt : JSRuntime) (u : List Nat) (b pin : Bool)
    (maxL : Nat) (dead : Nat → Bool) (o : AllocOracle) (s : Nat)
    (e : AtomStateEntry) :
    (staticLookup rt u = some s →
      AtomizeAndCopyChars rt u b pin maxL dead o
        = (some s, rt, [AtomizeEvent.staticStrings]))
    ∧ (staticLookup rt u = none → rt.hasZone = true → pin = false →
        setLookup rt.heap rt.zoneCache (mkLookup b u) = some e →
        AtomizeAndCopyChars rt u b pin maxL dead o
          = (some e.atomId, rt,
             [AtomizeEvent.staticStrings, AtomizeEvent.zoneCacheLookup]))
    ∧ (staticLookup rt u = none →
        ((rt.hasZone && !pin) = false ∨
          (rt.hasZone = true ∧ pin = false ∧
            setLookup rt.heap rt.zoneCache (mkLookup b u) = none)) →
        rt.permanentAtomsPopulated = true →
        setLookup rt.heap rt.permanentAtoms (mkLookup b u) = some e →
        AtomizeEvent.lengthCheck ∉ (AtomizeAndCopyChars rt u b pin maxL dead o).2.2
        ∧ AtomizeEvent.shardAccess ∉ (AtomizeAndCopyChars rt u b pin maxL dead o).2.2
        ∧ (AtomizeAndCopyChars rt u b pin maxL dead o).2.1.partitions = rt.partitions)
    ∧ (staticLookup rt u = none →
        ((rt.hasZone && !pin) = false ∨
          (rt.hasZone = true ∧ pin = false ∧
            setLookup rt.heap rt.zoneCache (mkLookup b u) = none)) →
        rt.permanentAtomsPopulated = true →
        setLookup rt.heap rt.permanentAtoms (mkLookup b u) = none →
        u.length > maxL →
        (AtomizeAndCopyChars rt u b pin maxL dead o).1 = none
        ∧ (AtomizeAndCopyChars rt u b pin maxL dead o).2.1 = rt
        ∧ AtomizeEvent.shardAccess ∉ (AtomizeAndCopyChars rt u b pin maxL dead o).2.2)
    ∧ (staticLookup rt u = none → rt.hasZone = false →
        rt.permanentAtomsPopulated = true →
        setLookup rt.heap rt.permanentAtoms (mkLookup b u) = none →
        ¬ u.length > maxL →
        (AtomizeAndCopyChars rt u b pin maxL dead o).2.2
          = [AtomizeEvent.staticStrings, AtomizeEvent.permanentLookup,
             AtomizeEvent.lengthCheck, AtomizeEvent.shardAccess]) := by
  refine ⟨fun h => atomize_static_hit rt u b pin maxL dead o s h, ?_, ?_, ?_, ?_⟩
  · intro hst hz hpin hc
    subst hpin
    exact atomize_zone_hit rt u b maxL dead o e hst hz hc
  · intro hst hcz hpop hperm
    rcases hcz with hzp | ⟨hz, hpin, hc⟩
    · rw [atomize_no_zone_path rt u b pin maxL dead o hst hzp,
          atomizeMain_perm_hit rt u b pin false maxL dead o e hpop hperm,
          zoneCacheAddStep_inactive]
      exact ⟨by simp, by simp, rfl⟩
    · subst hpin
      rw [atomize_zone_miss rt u b maxL dead o hst hz hc,
          atomizeMain_perm_hit rt u b false true maxL dead o e hpop hperm]
      refine ⟨?_, ?_, zoneCacheAddStep_partitions rt true e.atomId o.cacheAddOk⟩ <;>
        rcases zoneCacheAddStep_events rt true e.atomId o.cacheAddOk with hv | hv <;>
          simp [hv]
  · intro hst hcz hpop hperm hlen
    rcases hcz with hzp | ⟨hz, hpin, hc⟩
    · rw [atomize_no_zone_path rt u b pin maxL dead o hst hzp,
          atomizeMain_length_fail rt u b pin false maxL dead o hpop hperm hlen]
      exact ⟨rfl, rfl, by simp⟩
    · subst hpin
      rw [atomize_zone_miss rt u b maxL dead o hst hz hc,
          atomizeMain_length_fail rt u b false true maxL dead o hpop hperm hlen]
      exact ⟨rfl, rfl, by simp⟩
  · intro hst hz hpop hperm hlen
    have hzp : (rt.hasZone && !pin) = false := by simp [hz]
    rw [atomize_no_zone_path rt u b pin maxL dead o hst hzp]
    rcases hr : (AtomsTable.atomizeAndCopyChars rt u b pin (mkLookup b u) dead o).1 with _ | id
    · rw [atomizeMain_shard_none rt u b pin false maxL dead o hpop hperm hlen hr]
    · rw [atomizeMain_shard_some rt u b pin false maxL dead o id hpop hperm hlen hr,
          zoneCacheAddStep_inactive]
      simp

/-- Witness for `atomize_resolution_order`: a static-table hit on a concrete
state. -/
theorem atomize_resolution_order_witness :
    staticLookup rtStaticHit [5] = some 7
    ∧ AtomizeAndCopyChars rtStaticHit [5] true false 10 (fun _ => false)
        allocAllOk = (some 7, rtStaticHit, [AtomizeEvent.staticStrings]) :=
  ⟨by decide,
   (atomize_resolution_order rtStaticHit [5] true false 10 (fun _ => false)
      allocAllOk 7 ⟨0, false⟩).1 (by decide)⟩

/-! ### Zone-cache insertion failure fails the whole call (claim C7) -/

/-- Claim C7: with a zone present, no pin requested, a zone-cache miss, and a
zone-cache insertion that fails to allocate, `AtomizeAndCopyChars` returns no
atom even though the atom was successfully resolved through the permanent set
or through the shard path. -/
theorem zone_cache_add_failure_fails_call (rt : JSRuntime) (u : List Nat)
    (b : Bool) (maxL : Nat) (dead : Nat → Bool) (o : AllocOracle)
    (e : AtomStateEntry) (id : Nat)
    (hst : staticLookup rt u = none) (hz : rt.hasZone = true)
    (hc : setLookup rt.heap rt.zoneCache (mkLookup b u) = none)
    (hfail : o.cacheAddOk = false)
    (hpop : rt.permanentAtomsPopulated = true) :
    (setLookup rt.heap rt.permanentAtoms (mkLookup b u) = some e →
      (AtomizeAndCopyChars rt u b false maxL dead o).1 = none)
    ∧ (setLookup rt.heap rt.permanentAtoms (mkLookup b u) = none →
        ¬ u.length > maxL →
        (AtomsTable.atomizeAndCopyChars rt u b false (mkLookup b u) dead o).1 = some id →
        (AtomizeAndCopyChars rt u b false maxL dead o).1 = none) := by
  constructor
  · intro hperm
    rw [atomize_zone_miss rt u b maxL dead o hst hz hc,
        atomizeMain_perm_hit rt u b false true maxL dead o e hpop hperm, hfail,
        zoneCacheAddStep_fail]
  · intro hperm hlen hr
    rw [atomize_zone_miss rt u b maxL dead o hst hz hc,
        atomizeMain_shard_some rt u b false true maxL dead o id hpop hperm hlen hr,
        hfail, zoneCacheAddStep_fail]

/-- Witness for `zone_cache_add_failure_fails_call`: a concrete state whose
permanent set resolves the content, with a failing zone-cache insertion. -/
theorem zone_cache_add_failure_fails_call_witness :
    setLookup rtPermHit.heap rtPermHit.permanentAtoms (mkLookup true [97])
      = some ⟨0, true⟩
    ∧ (AtomizeAndCopyChars rtPermHit [97] true false 10 (fun _ => false)
        ⟨true, true, false⟩).1 = none :=
  ⟨by decide,
   (zone_cache_add_failure_fails_call rtPermHit [97] true 10 (fun _ => false)
      ⟨true, true, false⟩ ⟨0, true⟩ 0 (by decide) (by decide) (by decide)
      (by decide) (by decide)).1 (by decide)⟩

/-! ### Lookup during an active incremental sweep (claim C3) -/

/-- Claim C3: the shard path of `AtomsTable::atomizeAndCopyChars` during an
active incremental sweep checks the secondary set first, reuses a
primary-only hit only when the liveness predicate reports it not about to be
finalized, and inserts a fresh atom into the secondary set when the shard is
being swept and into the primary set otherwise. -/
theorem shard_lookup_during_sweep (rt : JSRuntime) (u : List Nat)
    (b pin : Bool) (l : Lookup) (dead : Nat → Bool) (o : AllocOracle)
    (part : Partition) (sec : AtomSet) (e e2 : AtomStateEntry)
    (hpart : rt.partitions[getPartitionIndex l]? = some part) :
    (part.atomsAddedWhileSweeping = some sec →
      setLookup rt.heap sec l = some e →
      (AtomsTable.atomizeAndCopyChars rt u b pin l dead o).1 = some e.atomId)
    ∧ (part.atomsAddedWhileSweeping = some sec →
        setLookup rt.heap sec l = none →
        setLookup rt.heap part.atoms l = some e2 →
        dead e2.atomId = false →
        (AtomsTable.atomizeAndCopyChars rt u b pin l dead o).1 = some e2.atomId)
    ∧ (part.atomsAddedWhileSweeping = some sec →
        setLookup rt.heap sec l = none →
        (setLookup rt.heap part.atoms l = none ∨
          (setLookup rt.heap part.atoms l = some e2 ∧ dead e2.atomId = true)) →
        o.newAtomOk = true → o.setAddOk = true →
        (AtomsTable.atomizeAndCopyChars rt u b pin l dead o).1 = some rt.heap.length
        ∧ (AtomsTable.atomizeAndCopyChars rt u b pin l dead o).2.partitions
          = rt.partitions.set (getPartitionIndex l)
              { part with atomsAddedWhileSweeping :=
                  (some (setAdd sec ⟨rt.heap.length, pin⟩)) })
    ∧ (part.atomsAddedWhileSweeping = none →
        setLookup rt.heap part.atoms l = none →
        o.newAtomOk = true → o.setAddOk = true →
        (AtomsTable.atomizeAndCopyChars rt u b pin l dead o).1 = some rt.heap.length
        ∧ (AtomsTable.atomizeAndCopyChars rt u b pin l dead o).2.partitions
          = rt.partitions.set (getPartitionIndex l)
              { part with atoms := setAdd part.atoms ⟨rt.heap.length, pin⟩ }) := by
  refine ⟨?_, ?_, ?_, ?_⟩
  · intro hsec hfind
    simp only [AtomsTable.atomizeAndCopyChars, hpart, hsec, hfind]
    split <;> rfl
  · intro hsec hsf hpf hdead
    simp only [AtomsTable.atomizeAndCopyChars, hpart, hsec, hsf, hpf, hdead,
      Bool.false_eq_true, if_false]
    split <;> rfl
  · intro hsec hsf hmiss hnew hadd
    have hfound :
        (match setLookup rt.heap part.atoms l with
          | some e2 => if dead e2.atomId = true then none else some (false, e2)
          | none => none) = (none : Option (Bool × AtomStateEntry)) := by
      rcases hmiss with hm | ⟨hm, hd⟩
      · simp [hm]
      · simp [hm, hd]
    simp only [AtomsTable.atomizeAndCopyChars, hpart, hsec, hsf, hfound,
      AllocateNewAtom, hnew, hadd, if_true]
    constructor <;> trivial
  · intro hsec hpf hnew hadd
    simp only [AtomsTable.atomizeAndCopyChars, hpart, hsec, hpf,
      AllocateNewAtom, hnew, hadd, if_true]
    constructor <;> trivial

/-! ### Pinning an existing atom (claim C10) -/

theorem setLookup_identity_found (heap : Heap) (s : AtomSet) (u : List Nat)
    (b : Bool) (n a hs : Nat) (e : AtomStateEntry)
    (hf : setLookup heap s ⟨u, b, n, some a, hs⟩ = some e) : e.atomId = a := by
  rw [setLookup] at hf
  have h2 := List.find?_some hf
  exact (eq_of_beq (show (a == e.atomId) = true from h2)).symm

theorem setLookup_identity_isSome (heap : Heap) (s : AtomSet) (u : List Nat)
    (b : Bool) (n a hs : Nat) (pb : Bool)
    (hm : (⟨a, pb⟩ : AtomStateEntry) ∈ s) :
    (setLookup heap s ⟨u, b, n, some a, hs⟩).isSome := by
  rw [setLookup, List.find?_isSome]
  exact ⟨⟨a, pb⟩, hm, by simp [atomMatch]⟩

theorem setPinFirst_mem (heap : Heap) (s : AtomSet) (l : Lookup)
    (e : AtomStateEntry) (hf : setLookup heap s l = some e) :
    ({ e with pinned := true } : AtomStateEntry) ∈ setPinFirst heap s l := by
  induction s with
  | nil => simp [setLookup] at hf
  | cons x rest ih =>
    by_cases hx : atomMatch heap x l = true
    · rw [setLookup, List.find?_cons_of_pos rest hx] at hf
      cases hf
      simp [setPinFirst, hx]
    · rw [setLookup, List.find?_cons_of_neg rest (by simpa using hx)] at hf
      simp only [setPinFirst, hx, Bool.false_eq_true, if_false]
      exact List.mem_cons_of_mem x (ih hf)

theorem atomPinned_heapSetPinned_self (heap : Heap) (a : Nat) (d : AtomData)
    (hd : getAtom heap a = some d) :
    atomPinned (heapSetPinned heap a) a = true := by
  have hlt : a < heap.length := by
    rcases List.getElem?_eq_some_iff.mp hd with ⟨h, _⟩
    exact h
  unfold atomPinned heapSetPinned
  rw [hd]
  have : getAtom (heap.set a { d with pinned := true }) a
      = some { d with pinned := true } := by
    simp [getAtom, List.getElem?_set_self hlt]
  rw [this]

/-- Claim C10: under the implicit preconditions of
`AtomsTable::pinExistingAtom` — the atom is not already pinned and its entry
is present in the owning partition's primary or secondary set — the internal
assertions hold (the call succeeds) and afterwards both the atom's and the
found entry's pinned bits are set; `AtomizeString` requests the pin exactly
in that situation, and a pin request for an already-pinned atom (permanent
atoms included) returns the same atom with the table unchanged. -/
theorem pinExistingAtom_spec (rt : JSRuntime) (a : Nat) (d : AtomData)
    (part : Partition) (pin : Bool) (maxL : Nat) (dead : Nat → Bool)
    (o : AllocOracle) :
    (getAtom rt.heap a = some d → d.pinned = false →
      rt.partitions[d.hash >>> (32 - PartitionShift)]? = some part →
      ((∃ pb, (⟨a, pb⟩ : AtomStateEntry) ∈ part.atoms) ∨
        (∃ sec pb, part.atomsAddedWhileSweeping = some sec ∧
          (⟨a, pb⟩ : AtomStateEntry) ∈ sec)) →
      ∃ rt2, AtomsTable.pinExistingAtom rt a = some rt2
        ∧ atomPinned rt2.heap a = true
        ∧ entryPinnedSomewhere rt2.partitions a = true
        ∧ AtomizeString rt (JSStringRepr.atomRef a) true maxL dead o = (some a, rt2))
    ∧ (atomPinned rt.heap a = true →
        AtomizeString rt (JSStringRepr.atomRef a) pin maxL dead o = (some a, rt))
    ∧ AtomizeString rt (JSStringRepr.atomRef a) false maxL dead o = (some a, rt) := by
  refine ⟨?_, ?_, ?_⟩
  · intro hd hnp hpart hpres
    have hnotpinned : atomPinned rt.heap a = false := by
      simp [atomPinned, hd, hnp]
    have hlt : d.hash >>> (32 - PartitionShift) < rt.partitions.length := by
      rcases List.getElem?_eq_some_iff.mp hpart with ⟨h, _⟩
      exact h
    unfold AtomsTable.pinExistingAtom
    rw [hd]
    simp only [hnp, Bool.false_eq_true, if_false, getPartitionIndex, hpart]
    rcases hpf : setLookup rt.heap part.atoms
        ⟨d.units, d.isLatin1, d.units.length, some a, d.hash⟩ with _ | e
    · rcases hpres with ⟨pb, hm⟩ | ⟨sec, pb, hsec, hm⟩
      · have := setLookup_identity_isSome rt.heap part.atoms d.units d.isLatin1
          d.units.length a d.hash pb hm
        rw [hpf] at this
        simp at this
      · simp only [hsec]
        have hs := setLookup_identity_isSome rt.heap sec d.units d.isLatin1
          d.units.length a d.hash pb hm
        rcases ho : setLookup rt.heap sec
            ⟨d.units, d.isLatin1, d.units.length, some a, d.hash⟩ with _ | e2
        · rw [ho] at hs; simp at hs
        · have hid := setLookup_identity_found rt.heap sec d.units d.isLatin1
            d.units.length a d.hash e2 ho
          simp only [hid, bne_self_eq_false, Bool.false_eq_true, if_false]
          refine ⟨_, rfl, atomPinned_heapSetPinned_self rt.heap a d hd, ?_, ?_⟩
          · have hmem2 : ({ e2 with pinned := true } : AtomStateEntry)
                ∈ setPinFirst rt.heap sec
                  ⟨d.units, d.isLatin1, d.units.length, some a, d.hash⟩ :=
              setPinFirst_mem rt.heap sec _ e2 ho
            simp only [entryPinnedSomewhere, List.any_eq_true]
            refine ⟨_, List.mem_set rt.partitions _ hlt _, ?_⟩
            simp only [partEntries, List.any_eq_true]
            exact ⟨{ e2 with pinned := true },
              by simp only [List.mem_append]; right; simpa using hmem2,
              by simp [hid]⟩
          · unfold AtomizeString
            simp only [hnotpinned, Bool.not_false, Bool.and_true, if_true]
            unfold AtomsTable.pinExistingAtom
            rw [hd]
            simp [hnp, getPartitionIndex, hpart, hpf, hsec, ho, hid]
    · have hid := setLookup_identity_found rt.heap part.atoms d.units d.isLatin1
        d.units.length a d.hash e hpf
      simp only [hid, bne_self_eq_false, Bool.false_eq_true, if_false]
      refine ⟨_, rfl, atomPinned_heapSetPinned_self rt.heap a d hd, ?_, ?_⟩
      · have hmem2 : ({ e with pinned := true } : AtomStateEntry)
            ∈ setPinFirst rt.heap part.atoms
              ⟨d.units, d.isLatin1, d.units.length, some a, d.hash⟩ :=
          setPinFirst_mem rt.heap part.atoms _ e hpf
        simp only [entryPinnedSomewhere, List.any_eq_true]
        refine ⟨_, List.mem_set rt.partitions _ hlt _, ?_⟩
        simp only [partEntries, List.any_eq_true]
        exact ⟨{ e with pinned := true },
          by simp only [List.mem_append]; left; simpa using hmem2,
          by simp [hid]⟩
      · unfold AtomizeString
        simp only [hnotpinned, Bool.not_false, Bool.and_true, if_true]
        unfold AtomsTable.pinExistingAtom
        rw [hd]
        simp [hnp, getPartitionIndex, hpart, hpf, hid]
  · intro hpin
    unfold AtomizeString
    simp [hpin]
  · unfold AtomizeString
    simp

/-- Witness for `shard_lookup_during_sweep`: mid-sweep, the only primary
entry for content `[97]` is reported dead, so it is not reused; a fresh atom
is inserted into the secondary set. -/
theorem shard_lookup_during_sweep_witness :
    rtSweep97.partitions[getPartitionIndex (Lookup.ofLatin1 [97])]?
      = some partSweep97
    ∧ partSweep97.atomsAddedWhileSweeping = some []
    ∧ setLookup rtSweep97.heap ([] : AtomSet) (Lookup.ofLatin1 [97]) = none
    ∧ setLookup rtSweep97.heap partSweep97.atoms (Lookup.ofLatin1 [97])
        = some ⟨0, false⟩
    ∧ ((AtomsTable.atomizeAndCopyChars rtSweep97 [97] true false
          (Lookup.ofLatin1 [97]) (fun i => i == 0) allocAllOk).1
        = some rtSweep97.heap.length
      ∧ (AtomsTable.atomizeAndCopyChars rtSweep97 [97] true false
          (Lookup.ofLatin1 [97]) (fun i => i == 0) allocAllOk).2.partitions
        = rtSweep97.partitions.set (getPartitionIndex (Lookup.ofLatin1 [97]))
            { partSweep97 with atomsAddedWhileSweeping :=
                (some (setAdd [] ⟨rtSweep97.heap.length, false⟩)) }) :=
  ⟨by decide, by decide, by decide, by decide,
   (shard_lookup_during_sweep rtSweep97 [97] true false (Lookup.ofLatin1 [97])
      (fun i => i == 0) allocAllOk partSweep97 [] ⟨0, false⟩ ⟨0, false⟩
      (by decide)).2.2.1 (by decide) (by decide)
      (Or.inr ⟨by decide, by decide⟩) (by decide) (by decide)⟩

/-- Witness for `pinExistingAtom_spec`: pinning atom 0 in a concrete table
succeeds and sets both pinned bits. -/
theorem pinExistingAtom_spec_witness :
    getAtom rtPlain97.heap 0 = some atomData97
    ∧ atomData97.pinned = false
    ∧ rtPlain97.partitions[atomData97.hash >>> (32 - PartitionShift)]?
        = some partPlain97
    ∧ (∃ rt2, AtomsTable.pinExistingAtom rtPlain97 0 = some rt2
        ∧ atomPinned rt2.heap 0 = true
        ∧ entryPinnedSomewhere rt2.partitions 0 = true
        ∧ AtomizeString rtPlain97 (JSStringRepr.atomRef 0) true 10
            (fun _ => false) allocAllOk = (some 0, rt2)) :=
  ⟨by decide, by decide, by decide,
   (pinExistingAtom_spec rtPlain97 0 atomData97 partPlain97 true 10
      (fun _ => false) allocAllOk).1 (by decide) (by decide) (by decide)
      (Or.inl ⟨false, by decide⟩)⟩

/-! ### Pin durability (claim C2) -/

/-- Counterexample to claim C2 as stated: atom 0 is pinned through
`pinExistingAtom`, yet a single `sweepAll` under a liveness predicate that
reports everything unreachable removes its entry — the sweep never consults
the pinned bit. -/
theorem pin_then_sweepAll_removes_entry :
    (AtomsTable.pinExistingAtom rtPlain97 0).isSome = true
    ∧ entryPinnedSomewhere rtPinned97.partitions 0 = true
    ∧ entryPresent rtPinned97.partitions 0 = true
    ∧ entryPresent (AtomsTable.sweepAll (fun _ => true) rtPinned97.partitions) 0
        = false := by decide

theorem mem_eraseIdx_of_ne {α : Type} (l : List α) (i : Nat) (a : α)
    (ha : a ∈ l) (hne : l[i]? ≠ some a) : a ∈ l.eraseIdx i := by
  induction l generalizing i with
  | nil => simp at ha
  | cons x xs ih =>
    cases i with
    | zero =>
      simp only [List.getElem?_cons_zero, ne_eq, Option.some.injEq] at hne
      rcases List.mem_cons.mp ha with h | h
      · exact absurd h.symm hne
      · simpa using h
    | succ n =>
      simp only [List.getElem?_cons_succ] at hne
      rcases List.mem_cons.mp ha with h | h
      · simp [List.eraseIdx, h]
      · simp only [List.eraseIdx]
        exact List.mem_cons_of_mem x (ih n h hne)

theorem mergeAtoms_preserves_entry (p : Partition) (e : AtomStateEntry)
    (he : entryInPartition p e) :
    entryInPartition (mergeAtomsAddedWhileSweeping p) e := by
  unfold mergeAtomsAddedWhileSweeping
  rcases hs : p.atomsAddedWhileSweeping with _ | sec
  · exact he
  · rcases he with h | ⟨sec2, hsec2, hm⟩
    · exact Or.inl (by simp [h])
    · rw [hs] at hsec2
      cases hsec2
      exact Or.inl (by simp [hm])

theorem settleLoop_preserves_entry (n : Nat) :
    ∀ (parts : List Partition) (i pos j : Nat) (part : Partition)
      (e : AtomStateEntry), parts.length - i ≤ n →
      parts[j]? = some part → entryInPartition part e →
      ∃ part2, (settleLoop parts i pos).1[j]? = some part2
        ∧ entryInPartition part2 e := by
  induction n with
  | zero =>
    intro parts i pos j part e hn hj he
    rw [settleLoop]
    rw [dif_neg (by omega)]
    exact ⟨part, hj, he⟩
  | succ n ih =>
    intro parts i pos j part e hn hj he
    rw [settleLoop]
    split
    · rename_i hi
      dsimp only
      split
      · exact ⟨part, hj, he⟩
      · by_cases hji : j = i
        · subst hji
          have hpj : parts.get ⟨j, hi⟩ = part := by
            rcases List.getElem?_eq_some_iff.mp hj with ⟨h2, hg⟩
            simpa using hg
          refine ih (parts.set j (mergeAtomsAddedWhileSweeping (parts.get ⟨j, hi⟩)))
            (j + 1) 0 j (mergeAtomsAddedWhileSweeping (parts.get ⟨j, hi⟩)) e
            (by simp [List.length_set]; omega) ?_ ?_
          · simp [List.getElem?_set_self hi]
          · rw [hpj]
            exact mergeAtoms_preserves_entry part e he
        · refine ih _ (i + 1) 0 j part e (by simp [List.length_set]; omega) ?_ he
          rw [List.getElem?_set_ne (by omega)]
          exact hj
    · exact ⟨part, hj, he⟩

theorem sweepIncrementally_preserves_entry (dead : Nat → Bool) (bud : Nat) :
    ∀ (parts : List Partition) (i pos j : Nat) (part : Partition)
      (e : AtomStateEntry),
      parts[j]? = some part → entryInPartition part e → dead e.atomId = false →
      ∃ part2,
        (AtomsTable.sweepIncrementally dead bud parts i pos).2.1[j]? = some part2
        ∧ entryInPartition part2 e := by
  induction bud with
  | zero =>
    intro parts i pos j part e hj he hdead
    rw [AtomsTable.sweepIncrementally]
    split
    · exact ⟨part, hj, he⟩
    · exact ⟨part, hj, he⟩
  | succ b ih =>
    intro parts i pos j part e hj he hdead
    rw [AtomsTable.sweepIncrementally]
    split
    · rename_i hi
      rcases hp : parts[i]? with _ | parti
      · exact ⟨part, hj, he⟩
      · dsimp only
        rcases hen : parti.atoms[pos]? with _ | en
        · exact ⟨part, hj, he⟩
        · dsimp only
          set step :=
            if dead en.atomId = true then
              (parts.set i { parti with atoms := parti.atoms.eraseIdx pos }, pos)
            else (parts, pos + 1) with hstep
          have hstepj : ∃ partm, step.1[j]? = some partm ∧ entryInPartition partm e := by
            rw [hstep]
            split
            · rename_i hdeaden
              by_cases hji : j = i
              · subst hji
                have : parti = part := by
                  rw [hp] at hj
                  exact (Option.some.injEq _ _).mp hj
                subst this
                refine ⟨{ parti with atoms := parti.atoms.eraseIdx pos },
                  by simp [List.getElem?_set_self (by
                    rcases List.getElem?_eq_some_iff.mp hp with ⟨h2, _⟩
                    exact h2)], ?_⟩
                rcases he with hm | hsec
                · refine Or.inl (mem_eraseIdx_of_ne parti.atoms pos e hm ?_)
                  rw [hen]
                  intro hcontra
                  have : en = e := (Option.some.injEq _ _).mp hcontra
                  rw [this] at hdeaden
                  rw [hdead] at hdeaden
                  exact absurd hdeaden (by simp)
                · exact Or.inr hsec
              · exact ⟨part, by rw [List.getElem?_set_ne (by omega)]; exact hj, he⟩
            · exact ⟨part, hj, he⟩
          rcases hstepj with ⟨partm, hjm, hem⟩
          rcases settleLoop_preserves_entry (step.1.length - i) step.1 i step.2 j
              partm e (by omega) hjm hem with ⟨parts2, hj2, he2⟩
          rcases ih (settleLoop step.1 i step.2).1 (settleLoop step.1 i step.2).2.1
              (settleLoop step.1 i step.2).2.2 j parts2 e hj2 he2 hdead with
            ⟨part3, hj3, he3⟩
          exact ⟨part3, hj3, he3⟩
    · exact ⟨part, hj, he⟩

/-- Claim C2 (amended): the sweeps do not consult the pinned bit; instead,
(1) `sweepAll` retains every entry the liveness predicate reports reachable,
(2) `sweepIncrementally` (any budget, any cursor position) retains every such
entry in its partition, and (3) every pinned entry is reported to the tracer
as a root by `tracePinnedAtoms`, which in the real collector forces the
liveness predicate to report it reachable.  Pin durability therefore holds
exactly when the liveness predicate reports pinned atoms reachable. -/
theorem pin_durability_via_roots (dead : Nat → Bool) (parts : List Partition)
    (bud i pos j : Nat) (part : Partition) (e : AtomStateEntry) :
    (parts[j]? = some part → e ∈ part.atoms → dead e.atomId = false →
      ∃ part2, (AtomsTable.sweepAll dead parts)[j]? = some part2
        ∧ e ∈ part2.atoms)
    ∧ (parts[j]? = some part → entryInPartition part e → dead e.atomId = false →
        ∃ part2,
          (AtomsTable.sweepIncrementally dead bud parts i pos).2.1[j]? = some part2
          ∧ entryInPartition part2 e)
    ∧ (parts[j]? = some part → entryInPartition part e → e.pinned = true →
        e.atomId ∈ AtomsTable.tracePinnedAtoms parts) := by
  refine ⟨?_, ?_, ?_⟩
  · intro hj he hdead
    refine ⟨{ part with atoms := part.atoms.filter (fun x => !dead x.atomId) }, ?_, ?_⟩
    · simp [AtomsTable.sweepAll, hj]
    · simp only [List.mem_filter]
      exact ⟨he, by simp [hdead]⟩
  · intro hj he hdead
    exact sweepIncrementally_preserves_entry dead bud parts i pos j part e hj he hdead
  · intro hj he hp
    have hmem : part ∈ parts := List.getElem?_mem hj
    rw [AtomsTable.tracePinnedAtoms, List.mem_flatMap]
    refine ⟨part, hmem, ?_⟩
    rcases he with hm | ⟨sec, hsec, hm⟩
    · rw [List.mem_append]
      left
      simp only [tracePinnedAtomsInSet, List.mem_map]
      exact ⟨e, List.mem_filter.mpr ⟨hm, hp⟩, rfl⟩
    · rw [List.mem_append]
      right
      rw [hsec]
      simp only [tracePinnedAtomsInSet, List.mem_map]
      exact ⟨e, List.mem_filter.mpr ⟨hm, hp⟩, rfl⟩

/-- Witness for `pin_durability_via_roots`: the pinned entry of `rtPinned97`
survives `sweepAll` and `sweepIncrementally` under a predicate that reports
it reachable, and is reported as a root. -/
theorem pin_durability_via_roots_witness :
    (rtPinned97.partitions[getPartitionIndex (Lookup.ofLatin1 [97])]?
      = some { atoms := [⟨0, true⟩], atomsAddedWhileSweeping := none })
    ∧ ((⟨0, true⟩ : AtomStateEntry)
        ∈ ({ atoms := [⟨0, true⟩], atomsAddedWhileSweeping := none } : Partition).atoms)
    ∧ ((fun _ => false) : Nat → Bool) 0 = false
    ∧ (∃ part2, (AtomsTable.sweepAll (fun _ => false) rtPinned97.partitions)[getPartitionIndex (Lookup.ofLatin1 [97])]?
        = some part2 ∧ (⟨0, true⟩ : AtomStateEntry) ∈ part2.atoms)
    ∧ (0 ∈ AtomsTable.tracePinnedAtoms rtPinned97.partitions) :=
  ⟨by decide, by decide, rfl,
   (pin_durability_via_roots (fun _ => false) rtPinned97.partitions 5 0 0
      (getPartitionIndex (Lookup.ofLatin1 [97]))
      { atoms := [⟨0, true⟩], atomsAddedWhileSweeping := none } ⟨0, true⟩).1
      (by decide) (by decide) rfl,
   (pin_durability_via_roots (fun _ => false) rtPinned97.partitions 5 0 0
      (getPartitionIndex (Lookup.ofLatin1 [97]))
      { atoms := [⟨0, true⟩], atomsAddedWhileSweeping := none } ⟨0, true⟩).2.2
      (by decide) (Or.inl (by decide)) rfl⟩

/-! ### Budgeted sweep and the merge invariant (claim C4) -/

theorem SecondaryShape.at_entry (parts : List Partition) (i j : Nat)
    (part : Partition) (h : SecondaryShape parts i)
    (hj : parts[j]? = some part) :
    part.atomsAddedWhileSweeping = none ↔ j < i := by
  have hlt : j < parts.length := by
    rcases List.getElem?_eq_some_iff.mp hj with ⟨h2, _⟩
    exact h2
  have := h j hlt
  rw [hj] at this
  simpa using this

theorem SecondaryShape.of_entry (parts : List Partition) (i : Nat)
    (h : ∀ j part, parts[j]? = some part →
      (part.atomsAddedWhileSweeping = none ↔ j < i)) :
    SecondaryShape parts i := by
  intro j hlt
  rcases hj : parts[j]? with _ | part
  · rw [List.getElem?_eq_none_iff] at hj
    omega
  · simpa using h j part hj

theorem mergeAtoms_secondary_none (p : Partition) (sec : AtomSet)
    (hs : p.atomsAddedWhileSweeping = some sec) :
    (mergeAtomsAddedWhileSweeping p).atomsAddedWhileSweeping = none := by
  unfold mergeAtomsAddedWhileSweeping
  rw [hs]

theorem settleLoop_spec (n : Nat) :
    ∀ (parts : List Partition) (i pos : Nat), parts.length - i ≤ n →
      i ≤ parts.length → SecondaryShape parts i →
      (settleLoop parts i pos).1.length = parts.length
      ∧ i ≤ (settleLoop parts i pos).2.1
      ∧ (settleLoop parts i pos).2.1 ≤ (settleLoop parts i pos).1.length
      ∧ SecondaryShape (settleLoop parts i pos).1 (settleLoop parts i pos).2.1
      ∧ ((settleLoop parts i pos).2.1 < (settleLoop parts i pos).1.length →
          ∃ part, (settleLoop parts i pos).1[(settleLoop parts i pos).2.1]? = some part
            ∧ (settleLoop parts i pos).2.2 < part.atoms.length) := by
  induction n with
  | zero =>
    intro parts i pos hn hi hshape
    rw [settleLoop, dif_neg (by omega)]
    refine ⟨rfl, Nat.le_refl i, hi, hshape, ?_⟩
    intro h
    dsimp only at h
    exact absurd h (by omega)
  | succ n ih =>
    intro parts i pos hn hi hshape
    rw [settleLoop]
    split
    · rename_i hlt
      dsimp only
      split
      · rename_i hpos
        refine ⟨rfl, Nat.le_refl i, hi, hshape, ?_⟩
        intro _
        exact ⟨parts.get ⟨i, hlt⟩, by simp, hpos⟩
      · rename_i hpos
        have hij : parts[i]? = some (parts.get ⟨i, hlt⟩) := by simp
        have hsecsome : ∃ sec,
            (parts.get ⟨i, hlt⟩).atomsAddedWhileSweeping = some sec := by
          have h2 := SecondaryShape.at_entry parts i i (parts.get ⟨i, hlt⟩)
            hshape hij
          rcases hs : (parts.get ⟨i, hlt⟩).atomsAddedWhileSweeping with _ | sec
          · rw [hs] at h2
            exact absurd (h2.mp rfl) (by omega)
          · exact ⟨sec, rfl⟩
        rcases hsecsome with ⟨sec, hsec⟩
        have hshape2 : SecondaryShape
            (parts.set i (mergeAtomsAddedWhileSweeping (parts.get ⟨i, hlt⟩)))
            (i + 1) := by
          apply SecondaryShape.of_entry
          intro j part hj
          by_cases hji : j = i
          · subst hji
            rw [List.getElem?_set_self hlt] at hj
            cases hj
            rw [mergeAtoms_secondary_none _ sec hsec]
            simp
          · rw [List.getElem?_set_ne (by omega)] at hj
            have := SecondaryShape.at_entry parts i j part hshape hj
            rw [this]
            omega
        have hres := ih (parts.set i (mergeAtomsAddedWhileSweeping (parts.get ⟨i, hlt⟩)))
          (i + 1) 0 (by simp [List.length_set]; omega)
          (by simp [List.length_set]; omega) hshape2
        rcases hres with ⟨hlen, hige, hile, hshape3, hsettled⟩
        rw [List.length_set] at hlen
        exact ⟨hlen, by omega, hile, hshape3, hsettled⟩
    · refine ⟨rfl, Nat.le_refl i, hi, hshape, ?_⟩
      intro h
      dsimp only at h
      rename_i hnl
      exact absurd h (by omega)

theorem sweepIncrementally_invariant (dead : Nat → Bool) (bud : Nat) :
    ∀ (parts : List Partition) (i pos : Nat),
      i ≤ parts.length → SecondaryShape parts i →
      (i < parts.length →
        ∃ part, parts[i]? = some part ∧ pos < part.atoms.length) →
      (AtomsTable.sweepIncrementally dead bud parts i pos).2.1.length = parts.length
      ∧ SecondaryShape (AtomsTable.sweepIncrementally dead bud parts i pos).2.1
          (AtomsTable.sweepIncrementally dead bud parts i pos).2.2.1
      ∧ (AtomsTable.sweepIncrementally dead bud parts i pos).2.2.1
          ≤ (AtomsTable.sweepIncrementally dead bud parts i pos).2.1.length
      ∧ ((AtomsTable.sweepIncrementally dead bud parts i pos).1 = true →
          (AtomsTable.sweepIncrementally dead bud parts i pos).2.2.1
            = (AtomsTable.sweepIncrementally dead bud parts i pos).2.1.length)
      ∧ ((AtomsTable.sweepIncrementally dead bud parts i pos).1 = false →
          (AtomsTable.sweepIncrementally dead bud parts i pos).2.2.1
            < (AtomsTable.sweepIncrementally dead bud parts i pos).2.1.length) := by
  induction bud with
  | zero =>
    intro parts i pos hi hshape hsettle
    rw [AtomsTable.sweepIncrementally]
    split
    · rename_i hlt
      exact ⟨rfl, hshape, hi, by intro h; simp at h, fun _ => hlt⟩
    · rename_i hnlt
      refine ⟨rfl, hshape, hi, fun _ => by dsimp only; omega,
        by intro h; simp at h⟩
  | succ b ih =>
    intro parts i pos hi hshape hsettle
    rw [AtomsTable.sweepIncrementally]
    split
    · rename_i hlt
      rcases hsettle hlt with ⟨parti, hp, hpos⟩
      rw [hp]
      dsimp only
      rcases hen : parti.atoms[pos]? with _ | en
      · rw [List.getElem?_eq_none_iff] at hen
        omega
      · dsimp only
        set step :=
          if dead en.atomId = true then
            (parts.set i { parti with atoms := parti.atoms.eraseIdx pos }, pos)
          else (parts, pos + 1) with hstep
        have hstepLen : step.1.length = parts.length := by
          rw [hstep]
          split <;> simp [List.length_set]
        have hstepShape : SecondaryShape step.1 i := by
          rw [hstep]
          split
          · apply SecondaryShape.of_entry
            intro j part hj
            by_cases hji : j = i
            · subst hji
              rw [List.getElem?_set_self (by omega)] at hj
              cases hj
              have := SecondaryShape.at_entry parts j j parti hshape hp
              simpa using this
            · rw [List.getElem?_set_ne (by omega)] at hj
              exact SecondaryShape.at_entry parts i j part hshape hj
          · exact hshape
        have hstepBound : i ≤ step.1.length := by omega
        have hsl := settleLoop_spec (step.1.length - i) step.1 i step.2
          (by omega) hstepBound hstepShape
        rcases hsl with ⟨hlen2, hige2, hile2, hshape2, hsettled2⟩
        have hih := ih (settleLoop step.1 i step.2).1
          (settleLoop step.1 i step.2).2.1 (settleLoop step.1 i step.2).2.2
          hile2 hshape2 (by
            intro h
            exact hsettled2 h)
        rcases hih with ⟨ha, hb, hc, hd, he⟩
        rw [hlen2, hstepLen] at ha
        exact ⟨ha, hb, hc, hd, he⟩
    · rename_i hnlt
      refine ⟨rfl, hshape, hi, fun _ => by dsimp only; omega,
        by intro h; simp at h⟩

/-- Claim C4: the budgeted sweep preserves the merge invariant.  With budget
0 and work remaining, `sweepIncrementally` returns `InProgress` (`false`)
immediately; at every return the cursor satisfies the merge invariant — a
partition's secondary set is null exactly when the cursor has fully passed
it, so no partition is partially merged and each is merged exactly once; an
`InProgress` return always leaves unswept partitions (it happens only on
budget exhaustion), and on a `Done` return every partition's secondary set is
null. -/
theorem sweepIncrementally_merge_invariant (dead : Nat → Bool)
    (bud : Nat) (parts : List Partition) (i pos : Nat)
    (hi : i ≤ parts.length) (hshape : SecondaryShape parts i)
    (hsettle : i < parts.length →
      ∃ part, parts[i]? = some part ∧ pos < part.atoms.length) :
    (i < parts.length → (AtomsTable.sweepIncrementally dead 0 parts i pos).1 = false)
    ∧ SecondaryShape (AtomsTable.sweepIncrementally dead bud parts i pos).2.1
        (AtomsTable.sweepIncrementally dead bud parts i pos).2.2.1
    ∧ ((AtomsTable.sweepIncrementally dead bud parts i pos).1 = false →
        (AtomsTable.sweepIncrementally dead bud parts i pos).2.2.1
          < (AtomsTable.sweepIncrementally dead bud parts i pos).2.1.length)
    ∧ ((AtomsTable.sweepIncrementally dead bud parts i pos).1 = true →
        ∀ (j : Nat) (part : Partition),
          (AtomsTable.sweepIncrementally dead bud parts i pos).2.1[j]? = some part →
          part.atomsAddedWhileSweeping = none) := by
  rcases sweepIncrementally_invariant dead bud parts i pos hi hshape hsettle with
    ⟨hlen, hshape2, hile, hdone, hprog⟩
  refine ⟨?_, hshape2, hprog, ?_⟩
  · intro hlt
    rw [AtomsTable.sweepIncrementally]
    rw [if_pos hlt]
  · intro htrue j part hj
    have hendeq := hdone htrue
    have := SecondaryShape.at_entry _ _ j part hshape2 hj
    rw [this]
    have hjlt : j < (AtomsTable.sweepIncrementally dead bud parts i pos).2.1.length := by
      rcases List.getElem?_eq_some_iff.mp hj with ⟨h2, _⟩
      exact h2
    omega

/-- Witness for `sweepIncrementally_merge_invariant` on a concrete
two-partition table with enough budget to finish. -/
theorem sweepIncrementally_merge_invariant_witness :
    SecondaryShape partsC4 0
    ∧ ((0 < partsC4.length →
          (AtomsTable.sweepIncrementally (fun _ => false) 0 partsC4 0 0).1 = false)
      ∧ SecondaryShape
          (AtomsTable.sweepIncrementally (fun _ => false) 10 partsC4 0 0).2.1
          (AtomsTable.sweepIncrementally (fun _ => false) 10 partsC4 0 0).2.2.1
      ∧ ((AtomsTable.sweepIncrementally (fun _ => false) 10 partsC4 0 0).1 = false →
          (AtomsTable.sweepIncrementally (fun _ => false) 10 partsC4 0 0).2.2.1
            < (AtomsTable.sweepIncrementally (fun _ => false) 10 partsC4 0 0).2.1.length)
      ∧ ((AtomsTable.sweepIncrementally (fun _ => false) 10 partsC4 0 0).1 = true →
          ∀ (j : Nat) (part : Partition),
            (AtomsTable.sweepIncrementally (fun _ => false) 10 partsC4 0 0).2.1[j]?
              = some part →
            part.atomsAddedWhileSweeping = none)) :=
  ⟨by unfold SecondaryShape; decide,
   sweepIncrementally_merge_invariant (fun _ => false) 10 partsC4 0 0 (by decide)
     (by unfold SecondaryShape; decide)
     (fun _ => ⟨⟨[⟨0, false⟩], some []⟩, by decide, by decide⟩)⟩

/-! ### Heap-modification lemmas for determinism and canonicalization -/

theorem atomMatch_entry_pinned (heap : Heap) (e : AtomStateEntry) (p : Bool)
    (l : Lookup) :
    atomMatch heap { e with pinned := p } l = atomMatch heap e l := rfl

theorem atomMatch_mk_congr (heap : Heap) (e : AtomStateEntry) (u : List Nat)
    (b1 b2 : Bool) :
    atomMatch heap e (mkLookup b1 u) = atomMatch heap e (mkLookup b2 u) := by
  rw [mkLookup_eq, mkLookup_eq]
  exact atomMatch_isLatin1_congr heap e u b1 b2 u.length (hashString u)

theorem setLookup_mk_congr (heap : Heap) (s : AtomSet) (u : List Nat)
    (b1 b2 : Bool) :
    setLookup heap s (mkLookup b1 u) = setLookup heap s (mkLookup b2 u) := by
  unfold setLookup
  induction s with
  | nil => rfl
  | cons x rest ih =>
    rw [List.find?_cons, List.find?_cons, atomMatch_mk_congr heap x u b1 b2]
    cases atomMatch heap x (mkLookup b2 u) <;> simp [ih]

theorem getAtom_congr_atomMatch (h1 h2 : Heap) (e : AtomStateEntry)
    (l : Lookup) (hg : getAtom h1 e.atomId = getAtom h2 e.atomId) :
    atomMatch h1 e l = atomMatch h2 e l := by
  unfold atomMatch
  rw [hg]

theorem getAtom_heapSetPinned (h : Heap) (x i : Nat) :
    getAtom (heapSetPinned h x) i
      = if i = x then (getAtom h i).map (fun d => { d with pinned := true })
        else getAtom h i := by
  unfold heapSetPinned
  split
  · rename_i hx
    split
    · rename_i hix
      subst hix
      rw [hx]
      rfl
    · rfl
  · rename_i d hx
    have hlt : x < h.length := by
      rcases List.getElem?_eq_some_iff.mp hx with ⟨h2, _⟩
      exact h2
    split
    · rename_i hix
      subst hix
      unfold getAtom
      rw [List.getElem?_set_self hlt]
      unfold getAtom at hx
      rw [hx]
      rfl
    · rename_i hix
      unfold getAtom
      rw [List.getElem?_set_ne (show x ≠ i by omega)]

theorem atomMatch_heapSetPinned (h : Heap) (x : Nat) (e : AtomStateEntry)
    (l : Lookup) :
    atomMatch (heapSetPinned h x) e l = atomMatch h e l := by
  unfold atomMatch
  cases hla : l.atom with
  | some a => rfl
  | none =>
    dsimp only
    rw [getAtom_heapSetPinned]
    by_cases hix : e.atomId = x
    · rw [if_pos hix]
      cases hg : getAtom h e.atomId with
      | none => rfl
      | some d => rfl
    · rw [if_neg hix]

theorem setLookup_heapSetPinned (h : Heap) (x : Nat) (s : AtomSet)
    (l : Lookup) :
    setLookup (heapSetPinned h x) s l = setLookup h s l := by
  unfold setLookup
  induction s with
  | nil => rfl
  | cons e rest ih =>
    rw [List.find?_cons, List.find?_cons, atomMatch_heapSetPinned h x e l]
    cases atomMatch h e l <;> simp [ih]

theorem getAtom_append_of_ne (h : Heap) (d : AtomData) (i : Nat)
    (hne : i ≠ h.length) : getAtom (h ++ [d]) i = getAtom h i := by
  unfold getAtom
  by_cases hlt : i < h.length
  · exact List.getElem?_append_left hlt
  · have h1 : h.length ≤ i := by omega
    have h2 : (h ++ [d]).length ≤ i := by simp; omega
    rw [List.getElem?_eq_none h2, List.getElem?_eq_none h1]

theorem getAtom_append_self (h : Heap) (d : AtomData) :
    getAtom (h ++ [d]) h.length = some d := List.getElem?_concat_length h d

theorem atomMatch_append_of_ne (h : Heap) (d : AtomData) (e : AtomStateEntry)
    (l : Lookup) (hne : e.atomId ≠ h.length) :
    atomMatch (h ++ [d]) e l = atomMatch h e l :=
  getAtom_congr_atomMatch _ _ e l (getAtom_append_of_ne h d e.atomId hne)

theorem setLookup_none_all (heap : Heap) (s : AtomSet) (l : Lookup) :
    setLookup heap s l = none ↔ ∀ e ∈ s, atomMatch heap e l = false := by
  unfold setLookup
  rw [List.find?_eq_none]
  constructor
  · intro h e he
    have := h e he
    simpa using this
  · intro h e he
    simp [h e he]

theorem setLookup_some_props (heap : Heap) (s : AtomSet) (l : Lookup)
    (e : AtomStateEntry) (h : setLookup heap s l = some e) :
    e ∈ s ∧ atomMatch heap e l = true := by
  rw [setLookup] at h
  have h2 := List.find?_some h
  exact ⟨List.mem_of_find?_eq_some h, h2⟩

theorem setLookup_append_hit (heap : Heap) (s : AtomSet) (l : Lookup)
    (n : Nat) (pb : Bool)
    (hold : ∀ e ∈ s, atomMatch heap e l = true → e.atomId = n)
    (hnew : atomMatch heap ⟨n, pb⟩ l = true) :
    ∃ e, setLookup heap (s ++ [⟨n, pb⟩]) l = some e ∧ e.atomId = n := by
  unfold setLookup
  rw [List.find?_append]
  rcases hf : List.find? (fun e => atomMatch heap e l) s with _ | e
  · refine ⟨⟨n, pb⟩, ?_, rfl⟩
    simp [hnew]
  · have hm := List.mem_of_find?_eq_some hf
    have hp := List.find?_some hf
    exact ⟨e, by simp, hold e hm hp⟩

theorem morph_append (h : Heap) (d : AtomData) :
    heapMorphPermanent (h ++ [d]) h.length
      = h ++ [{ d with pinned := true, permanent := true }] := by
  unfold heapMorphPermanent
  rw [getAtom_append_self]
  dsimp only
  rw [List.set_append_right _ _ (Nat.le_refl h.length)]
  simp

theorem setPinFirst_lookup_map (h1 h2 : Heap) (s : AtomSet) (l1 l2 : Lookup) :
    Option.map AtomStateEntry.atomId (setLookup h2 (setPinFirst h1 s l1) l2)
      = Option.map AtomStateEntry.atomId (setLookup h2 s l2) := by
  unfold setLookup
  induction s with
  | nil => rfl
  | cons e rest ih =>
    unfold setPinFirst
    split
    · rw [List.find?_cons, List.find?_cons]
      have : atomMatch h2 { e with pinned := true } l2 = atomMatch h2 e l2 :=
        atomMatch_entry_pinned h2 e true l2
      rw [this]
      cases atomMatch h2 e l2 <;> simp
    · rw [List.find?_cons, List.find?_cons]
      cases atomMatch h2 e l2 <;> simp [ih]

/-! ### Shard-path equations -/

theorem getPartitionIndex_mk (b : Bool) (u : List Nat) :
    getPartitionIndex (mkLookup b u)
      = hashString u >>> (32 - PartitionShift) := by
  rw [mkLookup_eq]
  rfl

theorem shardEq_secHit (rt : JSRuntime) (u : List Nat) (b pin : Bool)
    (l : Lookup) (dead : Nat → Bool) (o : AllocOracle) (part : Partition)
    (sec : AtomSet) (e : AtomStateEntry)
    (hpart : rt.partitions[getPartitionIndex l]? = some part)
    (hsec : part.atomsAddedWhileSweeping = some sec)
    (hf : setLookup rt.heap sec l = some e) :
    (AtomsTable.atomizeAndCopyChars rt u b pin l dead o).1 = some e.atomId := by
  simp only [AtomsTable.atomizeAndCopyChars, hpart, hsec, hf]
  split <;> rfl

theorem shardEq_primaryLiveHit (rt : JSRuntime) (u : List Nat) (b pin : Bool)
    (l : Lookup) (dead : Nat → Bool) (o : AllocOracle) (part : Partition)
    (sec : AtomSet) (e2 : AtomStateEntry)
    (hpart : rt.partitions[getPartitionIndex l]? = some part)
    (hsec : part.atomsAddedWhileSweeping = some sec)
    (hsf : setLookup rt.heap sec l = none)
    (hpf : setLookup rt.heap part.atoms l = some e2)
    (hdead : dead e2.atomId = false) :
    (AtomsTable.atomizeAndCopyChars rt u b pin l dead o).1 = some e2.atomId := by
  simp only [AtomsTable.atomizeAndCopyChars, hpart, hsec, hsf, hpf, hdead,
    Bool.false_eq_true, if_false]
  split <;> rfl

theorem shardEq_primaryHit_noSweep (rt : JSRuntime) (u : List Nat)
    (b pin : Bool) (l : Lookup) (dead : Nat → Bool) (o : AllocOracle)
    (part : Partition) (e : AtomStateEntry)
    (hpart : rt.partitions[getPartitionIndex l]? = some part)
    (hsec : part.atomsAddedWhileSweeping = none)
    (hpf : setLookup rt.heap part.atoms l = some e) :
    (AtomsTable.atomizeAndCopyChars rt u b pin l dead o).1 = some e.atomId := by
  simp only [AtomsTable.atomizeAndCopyChars, hpart, hsec, hpf, Option.map_some']
  split <;> rfl

theorem shardEq_found_nopin (rt : JSRuntime) (u : List Nat) (b pin : Bool)
    (l : Lookup) (dead : Nat → Bool) (o : AllocOracle) (part : Partition)
    (e : AtomStateEntry)
    (hpart : rt.partitions[getPartitionIndex l]? = some part)
    (hfound :
      (match part.atomsAddedWhileSweeping with
        | none => (setLookup rt.heap part.atoms l).map (fun e => (false, e))
        | some sec =>
          match setLookup rt.heap sec l with
          | some e => some (true, e)
          | none =>
            match setLookup rt.heap part.atoms l with
            | some e2 => if dead e2.atomId then none else some (false, e2)
            | none => none)
        = some (false, e) ∨
      (match part.atomsAddedWhileSweeping with
        | none => (setLookup rt.heap part.atoms l).map (fun e => (false, e))
        | some sec =>
          match setLookup rt.heap sec l with
          | some e => some (true, e)
          | none =>
            match setLookup rt.heap part.atoms l with
            | some e2 => if dead e2.atomId then none else some (false, e2)
            | none => none)
        = some (true, e))
    (hpinc : (pin && !atomPinned rt.heap e.atomId) = false) :
    AtomsTable.atomizeAndCopyChars rt u b pin l dead o = (some e.atomId, rt) := by
  rcases hfound with hfound | hfound <;>
    simp only [AtomsTable.atomizeAndCopyChars, hpart, hfound, hpinc,
      Bool.false_eq_true, if_false]

theorem shardEq_secHit_pin (rt : JSRuntime) (u : List Nat) (b pin : Bool)
    (l : Lookup) (dead : Nat → Bool) (o : AllocOracle) (part : Partition)
    (sec : AtomSet) (e : AtomStateEntry)
    (hpart : rt.partitions[getPartitionIndex l]? = some part)
    (hsec : part.atomsAddedWhileSweeping = some sec)
    (hf : setLookup rt.heap sec l = some e)
    (hpinc : (pin && !atomPinned rt.heap e.atomId) = true) :
    AtomsTable.atomizeAndCopyChars rt u b pin l dead o
      = (some e.atomId,
         { rt with
             heap := heapSetPinned rt.heap e.atomId,
             partitions := rt.partitions.set (getPartitionIndex l)
               { part with atomsAddedWhileSweeping :=
                   (some (setPinFirst rt.heap sec l)) } }) := by
  simp [AtomsTable.atomizeAndCopyChars, hpart, hsec, hf, hpinc]

theorem shardEq_primaryLiveHit_pin (rt : JSRuntime) (u : List Nat)
    (b pin : Bool) (l : Lookup) (dead : Nat → Bool) (o : AllocOracle)
    (part : Partition) (sec : AtomSet) (e2 : AtomStateEntry)
    (hpart : rt.partitions[getPartitionIndex l]? = some part)
    (hsec : part.atomsAddedWhileSweeping = some sec)
    (hsf : setLookup rt.heap sec l = none)
    (hpf : setLookup rt.heap part.atoms l = some e2)
    (hdead : dead e2.atomId = false)
    (hpinc : (pin && !atomPinned rt.heap e2.atomId) = true) :
    AtomsTable.atomizeAndCopyChars rt u b pin l dead o
      = (some e2.atomId,
         { rt with
             heap := heapSetPinned rt.heap e2.atomId,
             partitions := rt.partitions.set (getPartitionIndex l)
               { part with atoms := setPinFirst rt.heap part.atoms l } }) := by
  simp [AtomsTable.atomizeAndCopyChars, hpart, hsec, hsf, hpf, hdead, hpinc]

theorem shardEq_primaryHit_noSweep_pin (rt : JSRuntime) (u : List Nat)
    (b pin : Bool) (l : Lookup) (dead : Nat → Bool) (o : AllocOracle)
    (part : Partition) (e : AtomStateEntry)
    (hpart : rt.partitions[getPartitionIndex l]? = some part)
    (hsec : part.atomsAddedWhileSweeping = none)
    (hpf : setLookup rt.heap part.atoms l = some e)
    (hpinc : (pin && !atomPinned rt.heap e.atomId) = true) :
    AtomsTable.atomizeAndCopyChars rt u b pin l dead o
      = (some e.atomId,
         { rt with
             heap := heapSetPinned rt.heap e.atomId,
             partitions := rt.partitions.set (getPartitionIndex l)
               { part with atoms := setPinFirst rt.heap part.atoms l } }) := by
  simp [AtomsTable.atomizeAndCopyChars, hpart, hsec, hpf, hpinc]

theorem shardEq_insert_sweep (rt : JSRuntime) (u : List Nat) (b pin : Bool)
    (l : Lookup) (dead : Nat → Bool) (o : AllocOracle) (part : Partition)
    (sec : AtomSet) (e2 : AtomStateEntry)
    (hpart : rt.partitions[getPartitionIndex l]? = some part)
    (hsec : part.atomsAddedWhileSweeping = some sec)
    (hsf : setLookup rt.heap sec l = none)
    (hmiss : setLookup rt.heap part.atoms l = none ∨
      (setLookup rt.heap part.atoms l = some e2 ∧ dead e2.atomId = true))
    (hnew : o.newAtomOk = true) (hadd : o.setAddOk = true) :
    AtomsTable.atomizeAndCopyChars rt u b pin l dead o
      = (some rt.heap.length,
         { rt with
             heap := rt.heap ++ [⟨u, b, l.hash, pin, false⟩],
             partitions := rt.partitions.set (getPartitionIndex l)
               { part with atomsAddedWhileSweeping :=
                   (some (setAdd sec ⟨rt.heap.length, pin⟩)) } }) := by
  have hfound :
      (match setLookup rt.heap part.atoms l with
        | some e2 => if dead e2.atomId = true then none else some (false, e2)
        | none => none) = (none : Option (Bool × AtomStateEntry)) := by
    rcases hmiss with hm | ⟨hm, hd⟩
    · simp [hm]
    · simp [hm, hd]
  simp [AtomsTable.atomizeAndCopyChars, hpart, hsec, hsf, hfound,
    AllocateNewAtom, hnew, hadd]

theorem shardEq_insert_noSweep (rt : JSRuntime) (u : List Nat) (b pin : Bool)
    (l : Lookup) (dead : Nat → Bool) (o : AllocOracle) (part : Partition)
    (hpart : rt.partitions[getPartitionIndex l]? = some part)
    (hsec : part.atomsAddedWhileSweeping = none)
    (hpf : setLookup rt.heap part.atoms l = none)
    (hnew : o.newAtomOk = true) (hadd : o.setAddOk = true) :
    AtomsTable.atomizeAndCopyChars rt u b pin l dead o
      = (some rt.heap.length,
         { rt with
             heap := rt.heap ++ [⟨u, b, l.hash, pin, false⟩],
             partitions := rt.partitions.set (getPartitionIndex l)
               { part with atoms := setAdd part.atoms ⟨rt.heap.length, pin⟩ } }) := by
  simp [AtomsTable.atomizeAndCopyChars, hpart, hsec, hpf, AllocateNewAtom,
    hnew, hadd]

theorem shard_fail_cases (rt : JSRuntime) (u : List Nat) (b pin : Bool)
    (l : Lookup) (dead : Nat → Bool) (o : AllocOracle) :
    rt.partitions[getPartitionIndex l]? = none →
    (AtomsTable.atomizeAndCopyChars rt u b pin l dead o).1 = none := by
  intro h
  simp [AtomsTable.atomizeAndCopyChars, h]

theorem mkLookup_hash (b : Bool) (u : List Nat) :
    (mkLookup b u).hash = hashString u := by
  rw [mkLookup_eq]

theorem atomMatch_mk_iff (heap : Heap) (e : AtomStateEntry) (u : List Nat)
    (b : Bool) :
    atomMatch heap e (mkLookup b u) = true ↔
      ∃ d, getAtom heap e.atomId = some d ∧ d.units = u
        ∧ d.hash = hashString u := by
  rw [mkLookup_eq, atomMatch_none_iff]
  constructor
  · rintro ⟨d, hg, hlen, hh, hu⟩
    exact ⟨d, hg, hu, hh⟩
  · rintro ⟨d, hg, hu, hh⟩
    exact ⟨d, hg, by rw [hu], hh, hu⟩

theorem option_map_atomId_some (X : Option AtomStateEntry) (n : Nat)
    (h : Option.map AtomStateEntry.atomId X = some n) :
    ∃ e, X = some e ∧ e.atomId = n := by
  cases X with
  | none => simp at h
  | some e =>
    simp only [Option.map_some', Option.some.injEq] at h
    exact ⟨e, rfl, h⟩

theorem shard_idempotent (rt : JSRuntime) (u : List Nat)
    (b1 b2 pin pin2 : Bool) (dead : Nat → Bool) (o1 o2 : AllocOracle)
    (id : Nat)
    (h1 : (AtomsTable.atomizeAndCopyChars rt u b1 pin (mkLookup b1 u) dead o1).1
      = some id) :
    (AtomsTable.atomizeAndCopyChars
        (AtomsTable.atomizeAndCopyChars rt u b1 pin (mkLookup b1 u) dead o1).2
        u b2 pin2 (mkLookup b2 u) dead o2).1 = some id := by
  rcases hpart : rt.partitions[getPartitionIndex (mkLookup b1 u)]? with _ | part
  · rw [shard_fail_cases rt u b1 pin _ dead o1 hpart] at h1
    exact absurd h1 (by simp)
  have hilt : getPartitionIndex (mkLookup b1 u) < rt.partitions.length := by
    rcases List.getElem?_eq_some_iff.mp hpart with ⟨h2, _⟩
    exact h2
  have hidx : getPartitionIndex (mkLookup b2 u)
      = getPartitionIndex (mkLookup b1 u) := by
    rw [getPartitionIndex_mk, getPartitionIndex_mk]
  rcases hsec : part.atomsAddedWhileSweeping with _ | s1
  · rcases hpf : setLookup rt.heap part.atoms (mkLookup b1 u) with _ | e
    · cases hno : o1.newAtomOk with
      | false =>
        exfalso
        simp [AtomsTable.atomizeAndCopyChars, hpart, hsec, hpf,
          AllocateNewAtom, hno] at h1
      | true =>
        cases hso : o1.setAddOk with
        | false =>
          exfalso
          simp [AtomsTable.atomizeAndCopyChars, hpart, hsec, hpf,
            AllocateNewAtom, hno, hso] at h1
        | true =>
          have hc1 := shardEq_insert_noSweep rt u b1 pin (mkLookup b1 u) dead
            o1 part hpart hsec hpf hno hso
          rw [hc1] at h1 ⊢
          have hid : id = rt.heap.length := by
            have := h1.symm
            simpa using this
          have hold : ∀ e ∈ part.atoms,
              atomMatch (rt.heap ++ [⟨u, b1, (mkLookup b1 u).hash, pin, false⟩])
                e (mkLookup b2 u) = true → e.atomId = rt.heap.length := by
            intro e he hm
            by_contra hne
            rw [atomMatch_append_of_ne _ _ _ _ hne] at hm
            have hall := (setLookup_none_all rt.heap part.atoms
              (mkLookup b2 u)).mp
              (by rw [setLookup_mk_congr rt.heap part.atoms u b2 b1]; exact hpf)
            rw [hall e he] at hm
            exact absurd hm (by simp)
          have hnew : atomMatch
              (rt.heap ++ [⟨u, b1, (mkLookup b1 u).hash, pin, false⟩])
              ⟨rt.heap.length, pin⟩ (mkLookup b2 u) = true := by
            rw [atomMatch_mk_iff]
            exact ⟨⟨u, b1, (mkLookup b1 u).hash, pin, false⟩,
              getAtom_append_self rt.heap _, rfl, mkLookup_hash b1 u⟩
          obtain ⟨e2, hf2, hid2⟩ := setLookup_append_hit
            (rt.heap ++ [⟨u, b1, (mkLookup b1 u).hash, pin, false⟩])
            part.atoms (mkLookup b2 u) rt.heap.length pin hold hnew
          rw [shardEq_primaryHit_noSweep _ u b2 pin2 (mkLookup b2 u) dead o2
            { part with atoms := setAdd part.atoms ⟨rt.heap.length, pin⟩ } e2
            (by rw [hidx]; simpa using List.getElem?_set_self hilt)
            hsec hf2, hid2, hid]
    · cases hpinc : (pin && !atomPinned rt.heap e.atomId) with
      | false =>
        have hc1 := shardEq_found_nopin rt u b1 pin (mkLookup b1 u) dead o1
          part e hpart (Or.inl (by simp [hsec, hpf])) hpinc
        rw [hc1] at h1 ⊢
        have hid : id = e.atomId := by
          have := h1.symm
          simpa using this
        rw [shardEq_primaryHit_noSweep rt u b2 pin2 (mkLookup b2 u) dead o2
          part e (by rw [hidx]; exact hpart) hsec
          (by rw [setLookup_mk_congr rt.heap part.atoms u b2 b1]; exact hpf),
          hid]
      | true =>
        have hc1 := shardEq_primaryHit_noSweep_pin rt u b1 pin (mkLookup b1 u)
          dead o1 part e hpart hsec hpf hpinc
        rw [hc1] at h1 ⊢
        have hid : id = e.atomId := by
          have := h1.symm
          simpa using this
        have hmap := setPinFirst_lookup_map rt.heap
          (heapSetPinned rt.heap e.atomId) part.atoms (mkLookup b1 u)
          (mkLookup b2 u)
        simp only [setLookup_heapSetPinned] at hmap
        rw [setLookup_mk_congr rt.heap part.atoms u b2 b1, hpf] at hmap
        simp only [Option.map_some'] at hmap
        obtain ⟨e2, hf2, hid2⟩ := option_map_atomId_some _ _ hmap
        have hf2h : setLookup (heapSetPinned rt.heap e.atomId)
            (setPinFirst rt.heap part.atoms (mkLookup b1 u)) (mkLookup b2 u)
            = some e2 := by
          rw [setLookup_heapSetPinned]
          exact hf2
        rw [shardEq_primaryHit_noSweep _ u b2 pin2 (mkLookup b2 u) dead o2
          { part with atoms := setPinFirst rt.heap part.atoms (mkLookup b1 u) }
          e2 (by rw [hidx]; simpa using List.getElem?_set_self hilt) hsec hf2h,
          hid2, hid]
  · rcases hsf : setLookup rt.heap s1 (mkLookup b1 u) with _ | e
    · rcases hpf : setLookup rt.heap part.atoms (mkLookup b1 u) with _ | e2
      · cases hno : o1.newAtomOk with
        | false =>
          exfalso
          simp [AtomsTable.atomizeAndCopyChars, hpart, hsec, hsf, hpf,
            AllocateNewAtom, hno] at h1
        | true =>
          cases hso : o1.setAddOk with
          | false =>
            exfalso
            simp [AtomsTable.atomizeAndCopyChars, hpart, hsec, hsf, hpf,
              AllocateNewAtom, hno, hso] at h1
          | true =>
            have hc1 := shardEq_insert_sweep rt u b1 pin (mkLookup b1 u) dead
              o1 part s1 ⟨0, false⟩ hpart hsec hsf (Or.inl hpf) hno hso
            rw [hc1] at h1 ⊢
            have hid : id = rt.heap.length := by
              have := h1.symm
              simpa using this
            have hold : ∀ e ∈ s1,
                atomMatch (rt.heap ++ [⟨u, b1, (mkLookup b1 u).hash, pin, false⟩])
                  e (mkLookup b2 u) = true → e.atomId = rt.heap.length := by
              intro e he hm
              by_contra hne
              rw [atomMatch_append_of_ne _ _ _ _ hne] at hm
              have hall := (setLookup_none_all rt.heap s1 (mkLookup b2 u)).mp
                (by rw [setLookup_mk_congr rt.heap s1 u b2 b1]; exact hsf)
              rw [hall e he] at hm
              exact absurd hm (by simp)
            have hnew : atomMatch
                (rt.heap ++ [⟨u, b1, (mkLookup b1 u).hash, pin, false⟩])
                ⟨rt.heap.length, pin⟩ (mkLookup b2 u) = true := by
              rw [atomMatch_mk_iff]
              exact ⟨⟨u, b1, (mkLookup b1 u).hash, pin, false⟩,
                getAtom_append_self rt.heap _, rfl, mkLookup_hash b1 u⟩
            obtain ⟨e3, hf2, hid2⟩ := setLookup_append_hit
              (rt.heap ++ [⟨u, b1, (mkLookup b1 u).hash, pin, false⟩])
              s1 (mkLookup b2 u) rt.heap.length pin hold hnew
            rw [shardEq_secHit _ u b2 pin2 (mkLookup b2 u) dead o2
              { part with atomsAddedWhileSweeping :=
                  (some (setAdd s1 ⟨rt.heap.length, pin⟩)) }
              (setAdd s1 ⟨rt.heap.length, pin⟩) e3
              (by rw [hidx]; simpa using List.getElem?_set_self hilt) rfl hf2,
              hid2, hid]
      · cases hd : dead e2.atomId with
        | true =>
          cases hno : o1.newAtomOk with
          | false =>
            exfalso
            simp [AtomsTable.atomizeAndCopyChars, hpart, hsec, hsf, hpf, hd,
              AllocateNewAtom, hno] at h1
          | true =>
            cases hso : o1.setAddOk with
            | false =>
              exfalso
              simp [AtomsTable.atomizeAndCopyChars, hpart, hsec, hsf, hpf, hd,
                AllocateNewAtom, hno, hso] at h1
            | true =>
              have hc1 := shardEq_insert_sweep rt u b1 pin (mkLookup b1 u)
                dead o1 part s1 e2 hpart hsec hsf (Or.inr ⟨hpf, hd⟩) hno hso
              rw [hc1] at h1 ⊢
              have hid : id = rt.heap.length := by
                have := h1.symm
                simpa using this
              have hold : ∀ e ∈ s1,
                  atomMatch (rt.heap ++ [⟨u, b1, (mkLookup b1 u).hash, pin, false⟩])
                    e (mkLookup b2 u) = true → e.atomId = rt.heap.length := by
                intro e he hm
                by_contra hne
                rw [atomMatch_append_of_ne _ _ _ _ hne] at hm
                have hall := (setLookup_none_all rt.heap s1 (mkLookup b2 u)).mp
                  (by rw [setLookup_mk_congr rt.heap s1 u b2 b1]; exact hsf)
                rw [hall e he] at hm
                exact absurd hm (by simp)
              have hnew : atomMatch
                  (rt.heap ++ [⟨u, b1, (mkLookup b1 u).hash, pin, false⟩])
                  ⟨rt.heap.length, pin⟩ (mkLookup b2 u) = true := by
                rw [atomMatch_mk_iff]
                exact ⟨⟨u, b1, (mkLookup b1 u).hash, pin, false⟩,
                  getAtom_append_self rt.heap _, rfl, mkLookup_hash b1 u⟩
              obtain ⟨e3, hf2, hid2⟩ := setLookup_append_hit
                (rt.heap ++ [⟨u, b1, (mkLookup b1 u).hash, pin, false⟩])
                s1 (mkLookup b2 u) rt.heap.length pin hold hnew
              rw [shardEq_secHit _ u b2 pin2 (mkLookup b2 u) dead o2
                { part with atomsAddedWhileSweeping :=
                    (some (setAdd s1 ⟨rt.heap.length, pin⟩)) }
                (setAdd s1 ⟨rt.heap.length, pin⟩) e3
                (by rw [hidx]; simpa using List.getElem?_set_self hilt) rfl hf2,
                hid2, hid]
        | false =>
          cases hpinc : (pin && !atomPinned rt.heap e2.atomId) with
          | false =>
            have hc1 := shardEq_found_nopin rt u b1 pin (mkLookup b1 u) dead
              o1 part e2 hpart (Or.inl (by simp [hsec, hsf, hpf, hd])) hpinc
            rw [hc1] at h1 ⊢
            have hid : id = e2.atomId := by
              have := h1.symm
              simpa using this
            rw [shardEq_primaryLiveHit rt u b2 pin2 (mkLookup b2 u) dead o2
              part s1 e2 (by rw [hidx]; exact hpart) hsec
              (by rw [setLookup_mk_congr rt.heap s1 u b2 b1]; exact hsf)
              (by rw [setLookup_mk_congr rt.heap part.atoms u b2 b1]; exact hpf)
              hd, hid]
          | true =>
            have hc1 := shardEq_primaryLiveHit_pin rt u b1 pin (mkLookup b1 u)
              dead o1 part s1 e2 hpart hsec hsf hpf hd hpinc
            rw [hc1] at h1 ⊢
            have hid : id = e2.atomId := by
              have := h1.symm
              simpa using this
            have hmap := setPinFirst_lookup_map rt.heap
              (heapSetPinned rt.heap e2.atomId) part.atoms (mkLookup b1 u)
              (mkLookup b2 u)
            simp only [setLookup_heapSetPinned] at hmap
            rw [setLookup_mk_congr rt.heap part.atoms u b2 b1, hpf] at hmap
            simp only [Option.map_some'] at hmap
            obtain ⟨e3, hf2, hid2⟩ := option_map_atomId_some _ _ hmap
            have hf2h : setLookup (heapSetPinned rt.heap e2.atomId)
                (setPinFirst rt.heap part.atoms (mkLookup b1 u))
                (mkLookup b2 u) = some e3 := by
              rw [setLookup_heapSetPinned]
              exact hf2
            have hsf2 : setLookup (heapSetPinned rt.heap e2.atomId) s1
                (mkLookup b2 u) = none := by
              rw [setLookup_heapSetPinned, setLookup_mk_congr rt.heap s1 u b2 b1]
              exact hsf
            rw [shardEq_primaryLiveHit _ u b2 pin2 (mkLookup b2 u) dead o2
              { part with atoms := setPinFirst rt.heap part.atoms (mkLookup b1 u) }
              s1 e3 (by rw [hidx]; simpa using List.getElem?_set_self hilt)
              hsec hsf2 hf2h (by rw [hid2]; exact hd), hid2, hid]
    · cases hpinc : (pin && !atomPinned rt.heap e.atomId) with
      | false =>
        have hc1 := shardEq_found_nopin rt u b1 pin (mkLookup b1 u) dead o1
          part e hpart (Or.inr (by simp [hsec, hsf])) hpinc
        rw [hc1] at h1 ⊢
        have hid : id = e.atomId := by
          have := h1.symm
          simpa using this
        rw [shardEq_secHit rt u b2 pin2 (mkLookup b2 u) dead o2 part s1 e
          (by rw [hidx]; exact hpart) hsec
          (by rw [setLookup_mk_congr rt.heap s1 u b2 b1]; exact hsf), hid]
      | true =>
        have hc1 := shardEq_secHit_pin rt u b1 pin (mkLookup b1 u) dead o1
          part s1 e hpart hsec hsf hpinc
        rw [hc1] at h1 ⊢
        have hid : id = e.atomId := by
          have := h1.symm
          simpa using this
        have hmap := setPinFirst_lookup_map rt.heap
          (heapSetPinned rt.heap e.atomId) s1 (mkLookup b1 u) (mkLookup b2 u)
        simp only [setLookup_heapSetPinned] at hmap
        rw [setLookup_mk_congr rt.heap s1 u b2 b1, hsf] at hmap
        simp only [Option.map_some'] at hmap
        obtain ⟨e3, hf2, hid2⟩ := option_map_atomId_some _ _ hmap
        have hf2h : setLookup (heapSetPinned rt.heap e.atomId)
            (setPinFirst rt.heap s1 (mkLookup b1 u)) (mkLookup b2 u)
            = some e3 := by
          rw [setLookup_heapSetPinned]
          exact hf2
        rw [shardEq_secHit _ u b2 pin2 (mkLookup b2 u) dead o2
          { part with atomsAddedWhileSweeping :=
              (some (setPinFirst rt.heap s1 (mkLookup b1 u))) }
          (setPinFirst rt.heap s1 (mkLookup b1 u)) e3
          (by rw [hidx]; simpa using List.getElem?_set_self hilt) rfl hf2h,
          hid2, hid]

/-! ### Characterizations used by the determinism proof -/

theorem shard_heap_cases (rt : JSRuntime) (u : List Nat) (b pin : Bool)
    (l : Lookup) (dead : Nat → Bool) (o : AllocOracle) :
    (AtomsTable.atomizeAndCopyChars rt u b pin l dead o).2.heap = rt.heap
    ∨ (∃ x, (AtomsTable.atomizeAndCopyChars rt u b pin l dead o).2.heap
          = heapSetPinned rt.heap x
        ∧ (AtomsTable.atomizeAndCopyChars rt u b pin l dead o).1 = some x)
    ∨ ((AtomsTable.atomizeAndCopyChars rt u b pin l dead o).2.heap
          = rt.heap ++ [⟨u, b, l.hash, pin, false⟩]
        ∧ (AtomsTable.atomizeAndCopyChars rt u b pin l dead o).1
          = some rt.heap.length) := by
  unfold AtomsTable.atomizeAndCopyChars
  dsimp only
  split
  · exact Or.inl rfl
  · split
    · rename_i found inSec e heq
      split
      · exact Or.inr (Or.inl ⟨e.atomId, rfl, rfl⟩)
      · exact Or.inl rfl
    · rcases hok : o.newAtomOk with _ | _
      · simp only [AllocateNewAtom, Bool.false_eq_true, if_false]
        exact Or.inl trivial
      · simp only [AllocateNewAtom, if_true]
        split
        · split <;> exact Or.inr (Or.inr ⟨rfl, rfl⟩)
        · exact Or.inl rfl

theorem shard_success_data (rt : JSRuntime) (u : List Nat) (b pin : Bool)
    (dead : Nat → Bool) (o : AllocOracle) (id : Nat)
    (hr : (AtomsTable.atomizeAndCopyChars rt u b pin (mkLookup b u) dead o).1
      = some id) :
    ∃ d, getAtom (AtomsTable.atomizeAndCopyChars rt u b pin (mkLookup b u) dead o).2.heap id
        = some d ∧ d.units = u ∧ d.hash = hashString u := by
  have hfoundData : ∀ (e : AtomStateEntry),
      atomMatch rt.heap e (mkLookup b u) = true →
      ∃ d, getAtom rt.heap e.atomId = some d ∧ d.units = u
        ∧ d.hash = hashString u := by
    intro e hm
    rw [atomMatch_mk_iff] at hm
    exact hm
  have hpinnedData : ∀ (e : AtomStateEntry),
      atomMatch rt.heap e (mkLookup b u) = true →
      ∃ d, getAtom (heapSetPinned rt.heap e.atomId) e.atomId = some d
        ∧ d.units = u ∧ d.hash = hashString u := by
    intro e hm
    rcases hfoundData e hm with ⟨d, hg, hu, hh⟩
    refine ⟨{ d with pinned := true }, ?_, hu, hh⟩
    rw [getAtom_heapSetPinned]
    simp [hg]
  rcases hpart : rt.partitions[getPartitionIndex (mkLookup b u)]? with _ | part
  · rw [shard_fail_cases rt u b pin _ dead o hpart] at hr
    exact absurd hr (by simp)
  rcases hsec : part.atomsAddedWhileSweeping with _ | s1
  · rcases hpf : setLookup rt.heap part.atoms (mkLookup b u) with _ | e
    · cases hno : o.newAtomOk with
      | false =>
        exfalso
        simp [AtomsTable.atomizeAndCopyChars, hpart, hsec, hpf,
          AllocateNewAtom, hno] at hr
      | true =>
        cases hso : o.setAddOk with
        | false =>
          exfalso
          simp [AtomsTable.atomizeAndCopyChars, hpart, hsec, hpf,
            AllocateNewAtom, hno, hso] at hr
        | true =>
          rw [shardEq_insert_noSweep rt u b pin (mkLookup b u) dead o part
            hpart hsec hpf hno hso] at hr ⊢
          have hid : id = rt.heap.length := by
            have := hr.symm
            simpa using this
          subst hid
          exact ⟨⟨u, b, (mkLookup b u).hash, pin, false⟩,
            getAtom_append_self rt.heap _, rfl, mkLookup_hash b u⟩
    · cases hpinc : (pin && !atomPinned rt.heap e.atomId) with
      | false =>
        rw [shardEq_found_nopin rt u b pin (mkLookup b u) dead o part e hpart
          (Or.inl (by simp [hsec, hpf])) hpinc] at hr ⊢
        have hid : id = e.atomId := by
          have := hr.symm
          simpa using this
        subst hid
        exact hfoundData e (setLookup_some_props _ _ _ _ hpf).2
      | true =>
        rw [shardEq_primaryHit_noSweep_pin rt u b pin (mkLookup b u) dead o
          part e hpart hsec hpf hpinc] at hr ⊢
        have hid : id = e.atomId := by
          have := hr.symm
          simpa using this
        subst hid
        exact hpinnedData e (setLookup_some_props _ _ _ _ hpf).2
  · rcases hsf : setLookup rt.heap s1 (mkLookup b u) with _ | e
    · rcases hpf : setLookup rt.heap part.atoms (mkLookup b u) with _ | e2
      · cases hno : o.newAtomOk with
        | false =>
          exfalso
          simp [AtomsTable.atomizeAndCopyChars, hpart, hsec, hsf, hpf,
            AllocateNewAtom, hno] at hr
        | true =>
          cases hso : o.setAddOk with
          | false =>
            exfalso
            simp [AtomsTable.atomizeAndCopyChars, hpart, hsec, hsf, hpf,
              AllocateNewAtom, hno, hso] at hr
          | true =>
            rw [shardEq_insert_sweep rt u b pin (mkLookup b u) dead o part s1
              ⟨0, false⟩ hpart hsec hsf (Or.inl hpf) hno hso] at hr ⊢
            have hid : id = rt.heap.length := by
              have := hr.symm
              simpa using this
            subst hid
            exact ⟨⟨u, b, (mkLookup b u).hash, pin, false⟩,
              getAtom_append_self rt.heap _, rfl, mkLookup_hash b u⟩
      · cases hd : dead e2.atomId with
        | true =>
          cases hno : o.newAtomOk with
          | false =>
            exfalso
            simp [AtomsTable.atomizeAndCopyChars, hpart, hsec, hsf, hpf, hd,
              AllocateNewAtom, hno] at hr
          | true =>
            cases hso : o.setAddOk with
            | false =>
              exfalso
              simp [AtomsTable.atomizeAndCopyChars, hpart, hsec, hsf, hpf, hd,
                AllocateNewAtom, hno, hso] at hr
            | true =>
              rw [shardEq_insert_sweep rt u b pin (mkLookup b u) dead o part
                s1 e2 hpart hsec hsf (Or.inr ⟨hpf, hd⟩) hno hso] at hr ⊢
              have hid : id = rt.heap.length := by
                have := hr.symm
                simpa using this
              subst hid
              exact ⟨⟨u, b, (mkLookup b u).hash, pin, false⟩,
                getAtom_append_self rt.heap _, rfl, mkLookup_hash b u⟩
        | false =>
          cases hpinc : (pin && !atomPinned rt.heap e2.atomId) with
          | false =>
            rw [shardEq_found_nopin rt u b pin (mkLookup b u) dead o part e2
              hpart (Or.inl (by simp [hsec, hsf, hpf, hd])) hpinc] at hr ⊢
            have hid : id = e2.atomId := by
              have := hr.symm
              simpa using this
            subst hid
            exact hfoundData e2 (setLookup_some_props _ _ _ _ hpf).2
          | true =>
            rw [shardEq_primaryLiveHit_pin rt u b pin (mkLookup b u) dead o
              part s1 e2 hpart hsec hsf hpf hd hpinc] at hr ⊢
            have hid : id = e2.atomId := by
              have := hr.symm
              simpa using this
            subst hid
            exact hpinnedData e2 (setLookup_some_props _ _ _ _ hpf).2
    · cases hpinc : (pin && !atomPinned rt.heap e.atomId) with
      | false =>
        rw [shardEq_found_nopin rt u b pin (mkLookup b u) dead o part e hpart
          (Or.inr (by simp [hsec, hsf])) hpinc] at hr ⊢
        have hid : id = e.atomId := by
          have := hr.symm
          simpa using this
        subst hid
        exact hfoundData e (setLookup_some_props _ _ _ _ hsf).2
      | true =>
        rw [shardEq_secHit_pin rt u b pin (mkLookup b u) dead o part s1 e
          hpart hsec hsf hpinc] at hr ⊢
        have hid : id = e.atomId := by
          have := hr.symm
          simpa using this
        subst hid
        exact hpinnedData e (setLookup_some_props _ _ _ _ hsf).2

theorem permEq_init_hit (rt : JSRuntime) (zp : Bool) (u : List Nat) (b : Bool)
    (l : Lookup) (o : AllocOracle) (e : AtomStateEntry)
    (hf : setLookup rt.heap rt.permanentAtomsDuringInit l = some e) :
    PermanentlyAtomizeAndCopyChars rt zp u b l o = (some e.atomId, rt) := by
  simp [PermanentlyAtomizeAndCopyChars, hf]

theorem permEq_init_new_zone (rt : JSRuntime) (u : List Nat) (b : Bool)
    (l : Lookup) (o : AllocOracle)
    (hf : setLookup rt.heap rt.permanentAtomsDuringInit l = none)
    (hno : o.newAtomOk = true) (hso : o.setAddOk = true)
    (hco : o.cacheAddOk = true) :
    PermanentlyAtomizeAndCopyChars rt true u b l o
      = (some rt.heap.length,
         { rt with
             heap := rt.heap ++ [⟨u, b, l.hash, true, true⟩],
             permanentAtomsDuringInit := setAdd rt.permanentAtomsDuringInit
               ⟨rt.heap.length, true⟩,
             zoneCache := setAdd rt.zoneCache ⟨rt.heap.length, false⟩ }) := by
  simp [PermanentlyAtomizeAndCopyChars, hf, AllocateNewAtom, hno, hso, hco,
    morph_append]

theorem permEq_init_new_nozone (rt : JSRuntime) (u : List Nat) (b : Bool)
    (l : Lookup) (o : AllocOracle)
    (hf : setLookup rt.heap rt.permanentAtomsDuringInit l = none)
    (hno : o.newAtomOk = true) (hso : o.setAddOk = true) :
    PermanentlyAtomizeAndCopyChars rt false u b l o
      = (some rt.heap.length,
         { rt with
             heap := rt.heap ++ [⟨u, b, l.hash, true, true⟩],
             permanentAtomsDuringInit := setAdd rt.permanentAtomsDuringInit
               ⟨rt.heap.length, true⟩ }) := by
  simp [PermanentlyAtomizeAndCopyChars, hf, AllocateNewAtom, hno, hso,
    morph_append]

theorem atomize_cache_hit_result (rt1 : JSRuntime) (u : List Nat) (b2 : Bool)
    (maxL2 : Nat) (dead : Nat → Bool) (o2 : AllocOracle) (a1 : Nat)
    (c0 : AtomSet)
    (hst1 : staticLookup rt1 u = none) (hz1 : rt1.hasZone = true)
    (hcache : rt1.zoneCache = c0 ++ [⟨a1, false⟩])
    (hold : ∀ e ∈ c0, atomMatch rt1.heap e (mkLookup b2 u) = true →
      e.atomId = a1)
    (hnew : atomMatch rt1.heap ⟨a1, false⟩ (mkLookup b2 u) = true) :
    (AtomizeAndCopyChars rt1 u b2 false maxL2 dead o2).1 = some a1 := by
  obtain ⟨e2, hf, hid⟩ := setLookup_append_hit rt1.heap c0 (mkLookup b2 u)
    a1 false hold hnew
  rw [atomize_zone_hit rt1 u b2 maxL2 dead o2 e2 hst1 hz1
    (by rw [hcache]; exact hf)]
  simp [hid]

/-! ### Determinism of consecutive atomization calls -/

theorem setIdsValid_lt (heap : Heap) (s : AtomSet)
    (h : setIdsValid heap s = true) :
    ∀ e ∈ s, e.atomId < heap.length := by
  intro e he
  have h2 := List.all_eq_true.mp h e he
  simpa using h2

theorem atomMatch_false_grow (h hg : Heap) (e : AtomStateEntry) (u : List Nat)
    (b1 b2 : Bool) (hlt : e.atomId < h.length)
    (hshape : hg = h ∨ (∃ x, hg = heapSetPinned h x) ∨ ∃ d, hg = h ++ [d])
    (hm : atomMatch h e (mkLookup b1 u) = false) :
    atomMatch hg e (mkLookup b2 u) = false := by
  have hb : atomMatch h e (mkLookup b2 u) = false := by
    rw [atomMatch_mk_congr h e u b2 b1]
    exact hm
  rcases hshape with rfl | ⟨x, rfl⟩ | ⟨d, rfl⟩
  · exact hb
  · rw [atomMatch_heapSetPinned]
    exact hb
  · rw [atomMatch_append_of_ne h d e _ (by omega)]
    exact hb

theorem setLookup_none_grow (h hg : Heap) (s : AtomSet) (u : List Nat)
    (b1 b2 : Bool) (hvalid : setIdsValid h s = true)
    (hshape : hg = h ∨ (∃ x, hg = heapSetPinned h x) ∨ ∃ d, hg = h ++ [d])
    (hm : setLookup h s (mkLookup b1 u) = none) :
    setLookup hg s (mkLookup b2 u) = none := by
  rw [setLookup_none_all]
  intro e he
  exact atomMatch_false_grow h hg e u b1 b2 (setIdsValid_lt h s hvalid e he)
    hshape ((setLookup_none_all h s _).mp hm e he)

theorem hold_of_none_grow (h hg : Heap) (s : AtomSet) (u : List Nat)
    (b1 b2 : Bool) (n : Nat) (hvalid : setIdsValid h s = true)
    (hshape : hg = h ∨ (∃ x, hg = heapSetPinned h x) ∨ ∃ d, hg = h ++ [d])
    (hm : setLookup h s (mkLookup b1 u) = none) :
    ∀ e ∈ s, atomMatch hg e (mkLookup b2 u) = true → e.atomId = n := by
  intro e he hmt
  have hf := atomMatch_false_grow h hg e u b1 b2
    (setIdsValid_lt h s hvalid e he) hshape
    ((setLookup_none_all h s _).mp hm e he)
  rw [hf] at hmt
  exact (Bool.false_ne_true hmt).elim

theorem shard_heap_shape (rt : JSRuntime) (u : List Nat) (b pin : Bool)
    (l : Lookup) (dead : Nat → Bool) (o : AllocOracle) :
    (AtomsTable.atomizeAndCopyChars rt u b pin l dead o).2.heap = rt.heap
    ∨ (∃ x, (AtomsTable.atomizeAndCopyChars rt u b pin l dead o).2.heap
          = heapSetPinned rt.heap x)
    ∨ ∃ d, (AtomsTable.atomizeAndCopyChars rt u b pin l dead o).2.heap
          = rt.heap ++ [d] := by
  rcases shard_heap_cases rt u b pin l dead o with hc | ⟨x, hc, _⟩ | ⟨hc, _⟩
  · exact Or.inl hc
  · exact Or.inr (Or.inl ⟨x, hc⟩)
  · exact Or.inr (Or.inr ⟨_, hc⟩)

theorem shard_success_match (rt : JSRuntime) (u : List Nat) (b b2 pb pin : Bool)
    (dead : Nat → Bool) (o : AllocOracle) (id : Nat)
    (hr : (AtomsTable.atomizeAndCopyChars rt u b pin (mkLookup b u) dead o).1
      = some id) :
    atomMatch (AtomsTable.atomizeAndCopyChars rt u b pin (mkLookup b u) dead o).2.heap
      (⟨id, pb⟩ : AtomStateEntry) (mkLookup b2 u) = true := by
  rcases shard_success_data rt u b pin dead o id hr with ⟨d, hg, hu, hh⟩
  rw [atomMatch_mk_iff]
  exact ⟨d, hg, hu, hh⟩

theorem staticLookup_congr (rt1 rt2 : JSRuntime) (u : List Nat)
    (h : rt1.staticTable = rt2.staticTable) :
    staticLookup rt1 u = staticLookup rt2 u := by
  unfold staticLookup
  rw [h]

theorem second_call_cache_hit (rt2 : JSRuntime) (u : List Nat) (b2 : Bool)
    (maxL : Nat) (dead : Nat → Bool) (o2 : AllocOracle) (a1 id2 : Nat)
    (c0 : AtomSet)
    (h2 : (AtomizeAndCopyChars rt2 u b2 false maxL dead o2).1 = some id2)
    (hst1 : staticLookup rt2 u = none) (hz1 : rt2.hasZone = true)
    (hcache : rt2.zoneCache = c0 ++ [⟨a1, false⟩])
    (hold : ∀ e ∈ c0, atomMatch rt2.heap e (mkLookup b2 u) = true →
      e.atomId = a1)
    (hnew : atomMatch rt2.heap (⟨a1, false⟩ : AtomStateEntry) (mkLookup b2 u)
      = true) :
    id2 = a1 := by
  have hres := atomize_cache_hit_result rt2 u b2 maxL dead o2 a1 c0 hst1 hz1
    hcache hold hnew
  rw [hres] at h2
  simp only [Option.some.injEq] at h2
  omega

theorem second_call_init_hit (rt2 : JSRuntime) (u : List Nat) (b2 pin : Bool)
    (maxL : Nat) (dead : Nat → Bool) (o2 : AllocOracle) (a1 id2 : Nat)
    (c0 : AtomSet)
    (h2 : (AtomizeAndCopyChars rt2 u b2 pin maxL dead o2).1 = some id2)
    (hst1 : staticLookup rt2 u = none)
    (hzp : (rt2.hasZone && !pin) = false)
    (hpop : rt2.permanentAtomsPopulated = false)
    (hstag : rt2.permanentAtomsDuringInit = c0 ++ [⟨a1, true⟩])
    (hold : ∀ e ∈ c0, atomMatch rt2.heap e (mkLookup b2 u) = true →
      e.atomId = a1)
    (hnew : atomMatch rt2.heap (⟨a1, true⟩ : AtomStateEntry) (mkLookup b2 u)
      = true) :
    id2 = a1 := by
  obtain ⟨e2, hf, hid⟩ := setLookup_append_hit rt2.heap c0 (mkLookup b2 u)
    a1 true hold hnew
  rw [atomize_no_zone_path rt2 u b2 pin maxL dead o2 hst1 hzp] at h2
  dsimp only at h2
  rw [atomizeMain_init rt2 u b2 pin false maxL dead o2 hpop] at h2
  dsimp only at h2
  rw [permEq_init_hit rt2 false u b2 (mkLookup b2 u) o2 e2
    (by rw [hstag]; exact hf)] at h2
  dsimp only at h2
  simp only [Option.some.injEq] at h2
  omega

theorem atomize_deterministic_aux (rt : JSRuntime) (u : List Nat)
    (b1 b2 pin : Bool) (maxL : Nat) (dead : Nat → Bool) (o1 o2 : AllocOracle)
    (id id2 : Nat)
    (hwf : rtIdsValid rt = true)
    (h1 : (AtomizeAndCopyChars rt u b1 pin maxL dead o1).1 = some id)
    (h2 : (AtomizeAndCopyChars (AtomizeAndCopyChars rt u b1 pin maxL dead o1).2.1
            u b2 pin maxL dead o2).1 = some id2) :
    id2 = id := by
  simp only [rtIdsValid, Bool.and_eq_true] at hwf
  obtain ⟨⟨hwz, hwp⟩, hws⟩ := hwf
  cases hst : staticLookup rt u with
  | some s =>
    rw [atomize_static_hit rt u b1 pin maxL dead o1 s hst] at h1 h2
    dsimp only at h1 h2
    rw [atomize_static_hit rt u b2 pin maxL dead o2 s hst] at h2
    dsimp only at h2
    simp only [Option.some.injEq] at h1 h2
    omega
  | none =>
    cases hzp : rt.hasZone && !pin with
    | true =>
      have hzp3 := hzp
      simp only [Bool.and_eq_true] at hzp3
      have hz : rt.hasZone = true := hzp3.1
      have hpin : pin = false := by
        have := hzp3.2
        simpa using this
      subst hpin
      cases hzc : setLookup rt.heap rt.zoneCache (mkLookup b1 u) with
      | some e =>
        rw [atomize_zone_hit rt u b1 maxL dead o1 e hst hz hzc] at h1 h2
        dsimp only at h1 h2
        rw [atomize_zone_hit rt u b2 maxL dead o2 e hst hz
          (by rw [setLookup_mk_congr rt.heap rt.zoneCache u b2 b1]
              exact hzc)] at h2
        dsimp only at h2
        simp only [Option.some.injEq] at h1 h2
        omega
      | none =>
        rw [atomize_zone_miss rt u b1 maxL dead o1 hst hz hzc] at h1 h2
        dsimp only at h1 h2
        cases hpop : rt.permanentAtomsPopulated with
        | false =>
          rw [atomizeMain_init rt u b1 false true maxL dead o1 hpop] at h1 h2
          dsimp only at h1 h2
          cases hsf : setLookup rt.heap rt.permanentAtomsDuringInit
              (mkLookup b1 u) with
          | some e =>
            rw [permEq_init_hit rt true u b1 (mkLookup b1 u) o1 e hsf] at h1 h2
            dsimp only at h1 h2
            rw [atomize_zone_miss rt u b2 maxL dead o2 hst hz
              (by rw [setLookup_mk_congr rt.heap rt.zoneCache u b2 b1]
                  exact hzc)] at h2
            dsimp only at h2
            rw [atomizeMain_init rt u b2 false true maxL dead o2 hpop] at h2
            dsimp only at h2
            rw [permEq_init_hit rt true u b2 (mkLookup b2 u) o2 e
              (by rw [setLookup_mk_congr rt.heap rt.permanentAtomsDuringInit
                        u b2 b1]
                  exact hsf)] at h2
            dsimp only at h2
            simp only [Option.some.injEq] at h1 h2
            omega
          | none =>
            cases hno : o1.newAtomOk with
            | false =>
              exfalso
              simp [PermanentlyAtomizeAndCopyChars, hsf, AllocateNewAtom,
                hno] at h1
            | true =>
              cases hso : o1.setAddOk with
              | false =>
                exfalso
                simp [PermanentlyAtomizeAndCopyChars, hsf, AllocateNewAtom,
                  hno, hso] at h1
              | true =>
                cases hco : o1.cacheAddOk with
                | false =>
                  exfalso
                  simp [PermanentlyAtomizeAndCopyChars, hsf, AllocateNewAtom,
                    hno, hso, hco] at h1
                | true =>
                  rw [permEq_init_new_zone rt u b1 (mkLookup b1 u) o1 hsf hno
                    hso hco] at h1 h2
                  dsimp only at h1 h2
                  have h1dec : rt.heap.length = id := by
                    simpa using h1
                  rw [← h1dec]
                  exact second_call_cache_hit _ u b2 maxL dead o2
                    rt.heap.length id2 rt.zoneCache h2 hst hz rfl
                    (hold_of_none_grow rt.heap
                      (rt.heap ++ [⟨u, b1, (mkLookup b1 u).hash, true, true⟩])
                      rt.zoneCache u b1 b2 rt.heap.length hwz
                      (Or.inr (Or.inr ⟨_, rfl⟩)) hzc)
                    (by rw [atomMatch_mk_iff]
                        exact ⟨⟨u, b1, (mkLookup b1 u).hash, true, true⟩,
                          getAtom_append_self rt.heap _, rfl,
                          mkLookup_hash b1 u⟩)
        | true =>
          cases hpm : setLookup rt.heap rt.permanentAtoms (mkLookup b1 u) with
          | some e =>
            rw [atomizeMain_perm_hit rt u b1 false true maxL dead o1 e hpop
              hpm] at h1 h2
            dsimp only at h1 h2
            cases hco : o1.cacheAddOk with
            | false =>
              exfalso
              rw [hco, zoneCacheAddStep_fail rt e.atomId] at h1
              dsimp only at h1
              simp at h1
            | true =>
              rw [hco, zoneCacheAddStep_ok rt e.atomId] at h1 h2
              dsimp only at h1 h2
              obtain ⟨d, hgd, hud, hhd⟩ := (atomMatch_mk_iff rt.heap e u b1).mp
                (setLookup_some_props _ _ _ _ hpm).2
              have h1dec : e.atomId = id := by
                simpa using h1
              rw [← h1dec]
              exact second_call_cache_hit _ u b2 maxL dead o2 e.atomId id2
                rt.zoneCache h2 hst hz rfl
                (hold_of_none_grow rt.heap rt.heap rt.zoneCache u b1 b2
                  e.atomId hwz (Or.inl rfl) hzc)
                (by rw [atomMatch_mk_iff]
                    exact ⟨d, hgd, hud, hhd⟩)
          | none =>
            by_cases hlen : u.length > maxL
            · exfalso
              rw [atomizeMain_length_fail rt u b1 false true maxL dead o1 hpop
                hpm hlen] at h1
              dsimp only at h1
              simp at h1
            · cases hsh : (AtomsTable.atomizeAndCopyChars rt u b1 false
                  (mkLookup b1 u) dead o1).1 with
              | none =>
                exfalso
                rw [atomizeMain_shard_none rt u b1 false true maxL dead o1
                  hpop hpm hlen hsh] at h1
                dsimp only at h1
                simp at h1
              | some sid =>
                rw [atomizeMain_shard_some rt u b1 false true maxL dead o1 sid
                  hpop hpm hlen hsh] at h1 h2
                dsimp only at h1 h2
                cases hco : o1.cacheAddOk with
                | false =>
                  exfalso
                  rw [hco, zoneCacheAddStep_fail] at h1
                  dsimp only at h1
                  simp at h1
                | true =>
                  rw [hco, zoneCacheAddStep_ok] at h1 h2
                  dsimp only at h1 h2
                  obtain ⟨hh, hps, hshp⟩ := shard_state_shape rt u b1 false
                    (mkLookup b1 u) dead o1
                  have hstS : (AtomsTable.atomizeAndCopyChars rt u b1 false
                      (mkLookup b1 u) dead o1).2.staticTable
                      = rt.staticTable := by
                    rw [hshp]
                  have hzS : (AtomsTable.atomizeAndCopyChars rt u b1 false
                      (mkLookup b1 u) dead o1).2.hasZone = rt.hasZone := by
                    rw [hshp]
                  have hzcS : (AtomsTable.atomizeAndCopyChars rt u b1 false
                      (mkLookup b1 u) dead o1).2.zoneCache = rt.zoneCache := by
                    rw [hshp]
                  have hheapS := shard_heap_shape rt u b1 false (mkLookup b1 u)
                    dead o1
                  have h1dec : sid = id := by
                    simpa using h1
                  rw [← h1dec]
                  refine second_call_cache_hit _ u b2 maxL dead o2 sid id2
                    ((AtomsTable.atomizeAndCopyChars rt u b1 false
                      (mkLookup b1 u) dead o1).2.zoneCache) h2
                    ((staticLookup_congr _ rt u hstS).trans hst)
                    (hzS.trans hz) rfl ?_ ?_
                  · intro e he hm
                    rw [hzcS] at he
                    have hm2 : atomMatch (AtomsTable.atomizeAndCopyChars rt u
                        b1 false (mkLookup b1 u) dead o1).2.heap e
                        (mkLookup b2 u) = true := hm
                    exact hold_of_none_grow rt.heap _ rt.zoneCache u b1 b2 sid
                      hwz hheapS hzc e he hm2
                  · exact shard_success_match rt u b1 b2 false false dead o1
                      sid hsh
    | false =>
      rw [atomize_no_zone_path rt u b1 pin maxL dead o1 hst hzp] at h1 h2
      dsimp only at h1 h2
      cases hpop : rt.permanentAtomsPopulated with
      | false =>
        rw [atomizeMain_init rt u b1 pin false maxL dead o1 hpop] at h1 h2
        dsimp only at h1 h2
        cases hsf : setLookup rt.heap rt.permanentAtomsDuringInit
            (mkLookup b1 u) with
        | some e =>
          rw [permEq_init_hit rt false u b1 (mkLookup b1 u) o1 e hsf] at h1 h2
          dsimp only at h1 h2
          rw [atomize_no_zone_path rt u b2 pin maxL dead o2 hst hzp] at h2
          dsimp only at h2
          rw [atomizeMain_init rt u b2 pin false maxL dead o2 hpop] at h2
          dsimp only at h2
          rw [permEq_init_hit rt false u b2 (mkLookup b2 u) o2 e
            (by rw [setLookup_mk_congr rt.heap rt.permanentAtomsDuringInit
                      u b2 b1]
                exact hsf)] at h2
          dsimp only at h2
          simp only [Option.some.injEq] at h1 h2
          omega
        | none =>
          cases hno : o1.newAtomOk with
          | false =>
            exfalso
            simp [PermanentlyAtomizeAndCopyChars, hsf, AllocateNewAtom,
              hno] at h1
          | true =>
            cases hso : o1.setAddOk with
            | false =>
              exfalso
              simp [PermanentlyAtomizeAndCopyChars, hsf, AllocateNewAtom,
                hno, hso] at h1
            | true =>
              rw [permEq_init_new_nozone rt u b1 (mkLookup b1 u) o1 hsf hno
                hso] at h1 h2
              dsimp only at h1 h2
              have h1dec : rt.heap.length = id := by
                simpa using h1
              rw [← h1dec]
              exact second_call_init_hit _ u b2 pin maxL dead o2
                rt.heap.length id2 rt.permanentAtomsDuringInit h2 hst hzp hpop
                rfl
                (hold_of_none_grow rt.heap
                  (rt.heap ++ [⟨u, b1, (mkLookup b1 u).hash, true, true⟩])
                  rt.permanentAtomsDuringInit u b1 b2 rt.heap.length hws
                  (Or.inr (Or.inr ⟨_, rfl⟩)) hsf)
                (by rw [atomMatch_mk_iff]
                    exact ⟨⟨u, b1, (mkLookup b1 u).hash, true, true⟩,
                      getAtom_append_self rt.heap _, rfl,
                      mkLookup_hash b1 u⟩)
      | true =>
        cases hpm : setLookup rt.heap rt.permanentAtoms (mkLookup b1 u) with
        | some e =>
          rw [atomizeMain_perm_hit rt u b1 pin false maxL dead o1 e hpop
            hpm] at h1 h2
          dsimp only at h1 h2
          rw [zoneCacheAddStep_inactive rt e.atomId o1.cacheAddOk] at h1 h2
          dsimp only at h1 h2
          rw [atomize_no_zone_path rt u b2 pin maxL dead o2 hst hzp] at h2
          dsimp only at h2
          rw [atomizeMain_perm_hit rt u b2 pin false maxL dead o2 e hpop
            (by rw [setLookup_mk_congr rt.heap rt.permanentAtoms u b2 b1]
                exact hpm)] at h2
          dsimp only at h2
          rw [zoneCacheAddStep_inactive rt e.atomId o2.cacheAddOk] at h2
          dsimp only at h2
          simp only [Option.some.injEq] at h1 h2
          omega
        | none =>
          by_cases hlen : u.length > maxL
          · exfalso
            rw [atomizeMain_length_fail rt u b1 pin false maxL dead o1 hpop
              hpm hlen] at h1
            dsimp only at h1
            simp at h1
          · cases hsh : (AtomsTable.atomizeAndCopyChars rt u b1 pin
                (mkLookup b1 u) dead o1).1 with
            | none =>
              exfalso
              rw [atomizeMain_shard_none rt u b1 pin false maxL dead o1 hpop
                hpm hlen hsh] at h1
              dsimp only at h1
              simp at h1
            | some sid =>
              rw [atomizeMain_shard_some rt u b1 pin false maxL dead o1 sid
                hpop hpm hlen hsh] at h1 h2
              dsimp only at h1 h2
              rw [zoneCacheAddStep_inactive _ sid o1.cacheAddOk] at h1 h2
              dsimp only at h1 h2
              obtain ⟨hh, hps, hshp⟩ := shard_state_shape rt u b1 pin
                (mkLookup b1 u) dead o1
              have hstS : (AtomsTable.atomizeAndCopyChars rt u b1 pin
                  (mkLookup b1 u) dead o1).2.staticTable = rt.staticTable := by
                rw [hshp]
              have hzS : (AtomsTable.atomizeAndCopyChars rt u b1 pin
                  (mkLookup b1 u) dead o1).2.hasZone = rt.hasZone := by
                rw [hshp]
              have hpaS : (AtomsTable.atomizeAndCopyChars rt u b1 pin
                  (mkLookup b1 u) dead o1).2.permanentAtoms
                  = rt.permanentAtoms := by
                rw [hshp]
              have hpopS : (AtomsTable.atomizeAndCopyChars rt u b1 pin
                  (mkLookup b1 u) dead o1).2.permanentAtomsPopulated
                  = true := by
                rw [hshp]
                exact hpop
              have hheapS := shard_heap_shape rt u b1 pin (mkLookup b1 u)
                dead o1
              have hst2 : staticLookup (AtomsTable.atomizeAndCopyChars rt u b1
                  pin (mkLookup b1 u) dead o1).2 u = none :=
                (staticLookup_congr _ rt u hstS).trans hst
              have hzp2 : ((AtomsTable.atomizeAndCopyChars rt u b1 pin
                  (mkLookup b1 u) dead o1).2.hasZone && !pin) = false := by
                rw [hzS]
                exact hzp
              rw [atomize_no_zone_path _ u b2 pin maxL dead o2 hst2 hzp2] at h2
              dsimp only at h2
              have hpm2 : setLookup (AtomsTable.atomizeAndCopyChars rt u b1
                  pin (mkLookup b1 u) dead o1).2.heap
                  (AtomsTable.atomizeAndCopyChars rt u b1 pin (mkLookup b1 u)
                    dead o1).2.permanentAtoms (mkLookup b2 u) = none := by
                rw [hpaS]
                exact setLookup_none_grow rt.heap _ rt.permanentAtoms u b1 b2
                  hwp hheapS hpm
              rw [atomizeMain_shard_some _ u b2 pin false maxL dead o2 sid
                hpopS hpm2 hlen
                (shard_idempotent rt u b1 b2 pin pin dead o1 o2 sid hsh)] at h2
              dsimp only at h2
              rw [zoneCacheAddStep_inactive _ sid o2.cacheAddOk] at h2
              dsimp only at h2
              simp only [Option.some.injEq] at h1 h2
              omega

/-- C1 counterexample: in a mid-sweep state holding a dead-but-not-yet-swept
atom with content `[97]`, a successful atomize of `[97]` allocates a second
atom with the same content, so the table scope then contains two entries with
equal content and different identity — the spec's content ⇔ identity
invariant does not hold at every point of a sweep. -/
theorem atomize_canonicalization_fails :
    (AtomizeAndCopyChars rtSweep97 [97] true false 100 deadOnly0
      allocAllOk).1 = some 1
    ∧ ¬ contentCanonical
        (AtomizeAndCopyChars rtSweep97 [97] true false 100 deadOnly0
          allocAllOk).2.1 := by
  constructor
  · decide
  · unfold contentCanonical
    decide

/-- C1 (amended): atomize is deterministic — when every handle cached outside
the shards is valid, a successful `AtomizeAndCopyChars` call followed by a
second call for the same content (possibly with the other character encoding)
that also succeeds returns the same atom identity, whichever of the static
table, the zone cache, the permanent set, a shard's sets, or a fresh
allocation resolved each call. -/
theorem atomize_consecutive_canonical (rt : JSRuntime) (u : List Nat)
    (b1 b2 pin : Bool) (maxL : Nat) (dead : Nat → Bool) (o1 o2 : AllocOracle)
    (id id2 : Nat)
    (hwf : rtIdsValid rt = true)
    (h1 : (AtomizeAndCopyChars rt u b1 pin maxL dead o1).1 = some id)
    (h2 : (AtomizeAndCopyChars (AtomizeAndCopyChars rt u b1 pin maxL dead o1).2.1
            u b2 pin maxL dead o2).1 = some id2) :
    id2 = id :=
  atomize_deterministic_aux rt u b1 b2 pin maxL dead o1 o2 id id2 hwf h1 h2

theorem atomize_consecutive_canonical_witness :
    rtIdsValid rtPlain97 = true
    ∧ (AtomizeAndCopyChars rtPlain97 [97] true false 100 deadNever
        allocAllOk).1 = some 0
    ∧ (AtomizeAndCopyChars (AtomizeAndCopyChars rtPlain97 [97] true false 100
          deadNever allocAllOk).2.1 [97] true false 100 deadNever
        allocAllOk).1 = some 0
    ∧ (0 : Nat) = 0 :=
  ⟨by decide, by decide, by decide,
   atomize_consecutive_canonical rtPlain97 [97] true true false 100 deadNever
     allocAllOk allocAllOk 0 0 (by decide) (by decide) (by decide)⟩

/-- C8: the lookup hash is a pure function of the code points (narrow and
wide lookups over the same code points hash equal), matching is insensitive
to the lookup's encoding, a length or hash mismatch returns false before any
character comparison, a lookup built from an atom is decided by identity
comparison alone, and a narrow-encoded then a wide-encoded atomization of the
same code points intern to the same atom. -/
theorem cross_encoding_hash_equality :
    (∀ u : List Nat, (Lookup.ofLatin1 u).hash = (Lookup.ofTwoByte u).hash)
    ∧ (∀ (heap : Heap) (e : AtomStateEntry) (u : List Nat) (b1 b2 : Bool),
        atomMatch heap e (mkLookup b1 u) = atomMatch heap e (mkLookup b2 u))
    ∧ (∀ (heap : Heap) (e : AtomStateEntry) (l : Lookup) (key : AtomData),
        l.atom = none →
        getAtom heap e.atomId = some key →
        (key.units.length ≠ l.length ∨ key.hash ≠ l.hash) →
        atomMatchTrace heap e l = (false, false))
    ∧ (∀ (heap : Heap) (e : AtomStateEntry) (l : Lookup) (a : Nat),
        l.atom = some a →
        atomMatchTrace heap e l = ((a == e.atomId), false))
    ∧ (∀ (rt : JSRuntime) (u : List Nat) (pin : Bool) (maxL : Nat)
        (dead : Nat → Bool) (o1 o2 : AllocOracle) (id id2 : Nat),
        rtIdsValid rt = true →
        (AtomizeAndCopyChars rt u true pin maxL dead o1).1 = some id →
        (AtomizeAndCopyChars
            (AtomizeAndCopyChars rt u true pin maxL dead o1).2.1
            u false pin maxL dead o2).1 = some id2 →
        id2 = id) := by
  refine ⟨fun u => rfl, atomMatch_mk_congr, ?_, ?_, ?_⟩
  · intro heap e l key hat hg hmis
    obtain ⟨lu, lb, ll, la, lh⟩ := l
    dsimp only at hat hmis
    subst hat
    have hcond : (key.units.length != ll || key.hash != lh) = true := by
      rcases hmis with h | h
      · simp [bne_iff_ne, h]
      · simp [bne_iff_ne, h]
    simp [atomMatchTrace, hg, hcond]
  · intro heap e l a hat
    obtain ⟨lu, lb, ll, la, lh⟩ := l
    dsimp only at hat
    subst hat
    rfl
  · intro rt u pin maxL dead o1 o2 id id2 hwf ha hb
    exact atomize_deterministic_aux rt u true false pin maxL dead o1 o2 id id2
      hwf ha hb

theorem cross_encoding_hash_equality_witness :
    (Lookup.ofLatin1 [97]).hash = (Lookup.ofTwoByte [97]).hash
    ∧ rtIdsValid rtPermHit = true
    ∧ (AtomizeAndCopyChars rtPermHit [97] true false 100 deadNever
        allocAllOk).1 = some 0
    ∧ (AtomizeAndCopyChars (AtomizeAndCopyChars rtPermHit [97] true false 100
          deadNever allocAllOk).2.1 [97] false false 100 deadNever
        allocAllOk).1 = some 0
    ∧ (0 : Nat) = 0 :=
  ⟨cross_encoding_hash_equality.1 [97], by decide, by decide, by decide,
   cross_encoding_hash_equality.2.2.2.2 rtPermHit [97] false 100 deadNever
     allocAllOk allocAllOk 0 0 (by decide) (by decide) (by decide)⟩
